import Mathlib

/-! cljs2go: arity dispatch, numeric coercions and the `goog/object` helpers.

A shallow embedding of `src/main.go` and `src/goog/object/object.go`.

* Go's `interface{}` is the closed sum `Value`; the nil interface is `Value.nil`.
* A Go function that prints is a function into `Run`, which pairs the lines it wrote
  through `fmt.Printf` with its outcome, a value or a panic.
* `float64` is modelled by `F64`, IEEE-754 binary64 with round-to-nearest-even.
* `int` and `int64` carry mathematical integers; conversions that can wrap do so
  explicitly (`wrap64`).
* A `map[string]interface{}` is the list of its entries, one per key. `ForEach` runs on
  the map as it is at each step: its callback may be the nil func, may panic and may
  modify the map.
-/

namespace Cljs2go

/-! ## float64 -/

/-- IEEE-754 binary64. `fin neg m q` is the number `(-1)^neg * m * 2^q` in the format's
own normal form: `m < 2^53`, `-1074 ≤ q ≤ 971`, and `2^52 ≤ m` unless `q = -1074`
(subnormals and the two zeros). -/
inductive F64 where
  | fin (neg : Bool) (m : Nat) (q : Int)
  | inf (neg : Bool)
  | nan
  deriving DecidableEq, Repr

namespace F64

/-- Number of binary digits of `n` (`0` for `0`); `fuel` only bounds the recursion and
any `fuel ≥ n` is enough. -/
def bitLen : Nat → Nat → Nat
  | 0, _ => 0
  | fuel + 1, n => if n = 0 then 0 else bitLen fuel (n / 2) + 1

/-- Exponent of the last place that binary64 keeps of `m * 2^e`, `m ≠ 0`: 52 places
below the leading digit, but not below the subnormal exponent `-1074`. -/
def quantum (m : Nat) (e : Int) : Int :=
  max ((bitLen m m : Int) - 1 + e - 52) (-1074)

/-- The integer nearest to `m * 2^e / 2^q`, ties to even. -/
def scaled (m : Nat) (e q : Int) : Nat :=
  if q ≤ e then m * 2 ^ (e - q).toNat
  else
    let sh := (q - e).toNat
    let hi := m / 2 ^ sh
    let lo := m % 2 ^ sh
    let half := 2 ^ (sh - 1)
    if half < lo ∨ (lo = half ∧ hi % 2 = 1) then hi + 1 else hi

/-- Round the exact number `(-1)^neg * m * 2^e` to binary64, ties to even: keep 53
digits (fewer for a subnormal), renormalise when rounding up carried into a 54th digit,
and overflow to an infinity. -/
def round (neg : Bool) (m : Nat) (e : Int) : F64 :=
  if m = 0 then fin neg 0 (-1074)
  else if scaled m e (quantum m e) = 2 ^ 53 then
    if 971 < quantum m e + 1 then inf neg else fin neg (2 ^ 52) (quantum m e + 1)
  else
    if 971 < quantum m e then inf neg else fin neg (scaled m e (quantum m e)) (quantum m e)

/-- Conversion `float64(n)` of an integer: exact when representable, else rounded. -/
def ofInt (n : Int) : F64 :=
  round (decide (n < 0)) n.natAbs 0

/-- The constant `1` as a float64. -/
def one : F64 := fin false (2 ^ 52) (-52)

/-- Signed integer `(-1)^neg * m`. -/
def signed (neg : Bool) (m : Nat) : Int :=
  if neg then -(m : Int) else (m : Int)

/-- Sum `x + y` of two float64 values. -/
def add : F64 → F64 → F64
  | nan, _ => nan
  | _, nan => nan
  | inf a, inf b => if a = b then inf a else nan
  | inf a, fin _ _ _ => inf a
  | fin _ _ _, inf b => inf b
  | fin s1 m1 q1, fin s2 m2 q2 =>
    let q := min q1 q2
    let s : Int := signed s1 (m1 * 2 ^ (q1 - q).toNat) + signed s2 (m2 * 2 ^ (q2 - q).toNat)
    if s = 0 then fin (s1 && s2) 0 (-1074)
    else round (decide (s < 0)) s.natAbs q

/-- Conversion `int64(x)` of a float64: the fraction is discarded (truncation toward
zero). Go leaves the result implementation-dependent when the truncated value does not
fit (also for infinities and NaN); the amd64 result, the least int64, is used here. The
conversion never panics. -/
def toInt64 : F64 → Int
  | fin neg m q =>
    let t : Int := signed neg (if 0 ≤ q then m * 2 ^ q.toNat else m / 2 ^ (-q).toNat)
    if -(2 : Int) ^ 63 ≤ t ∧ t < (2 : Int) ^ 63 then t else -(2 : Int) ^ 63
  | inf _ => -(2 : Int) ^ 63
  | nan => -(2 : Int) ^ 63

/-- The real (here rational) number a finite float64 stands for. -/
def toRat : F64 → Option ℚ
  | fin neg m q => some ((signed neg m : ℚ) * (2 : ℚ) ^ q)
  | _ => none

end F64

/-! ## interface values, panics, output -/

/-- Dynamic types of the values that reach this program. -/
inductive GoType where
  | bool | int | int32 | int64 | float64 | string | sliceOfInterface | mapStringInterface
  deriving DecidableEq, Repr

/-- A Go `interface{}` value: the nil interface or a value tagged with its dynamic type. -/
inductive Value where
  | nil
  | bool (b : Bool)
  | int (n : Int)
  | int32 (n : Int)
  | int64 (n : Int)
  | float64 (x : F64)
  | str (s : String)
  | slice (xs : List Value)
  | map (kvs : List (String × Value))

/-- Dynamic type of an interface value; `none` for the nil interface. -/
def Value.dynType : Value → Option GoType
  | .nil => none
  | .bool _ => some .bool
  | .int _ => some .int
  | .int32 _ => some .int32
  | .int64 _ => some .int64
  | .float64 _ => some .float64
  | .str _ => some .string
  | .slice _ => some .sliceOfInterface
  | .map _ => some .mapStringInterface

/-- What a Go panic carries. -/
inductive Panic where
  /-- `panic(s)` with a string, as the program and package reflect raise it -/
  | msg (s : String)
  /-- a failed type assertion `x.(want)` on a value of dynamic type `dyn` -/
  | typeAssertion (dyn : Option GoType) (want : GoType)
  /-- an index expression out of range -/
  | indexOutOfRange (i len : Nat)
  /-- a call of a nil func value (a nil dereference at run time) -/
  | nilDereference
  deriving DecidableEq, Repr

/-- One call of `fmt.Printf`: the format and the operands. -/
structure PrintfCall where
  format : String
  args : List Value

/-- A run of a Go function: the `fmt.Printf` calls it made, in order, and how it ended. -/
structure Run (α : Type) where
  out : List PrintfCall
  res : Except Panic α

/-! ## main.go -/

/-- Type `Foo struct{}`. -/
structure Foo where
  deriving DecidableEq, Repr

/-- Method `Bar_1`. -/
def Foo.Bar_1 (_f : Foo) (x : Value) : Run Value :=
  ⟨[⟨"%d\n", [x]⟩], .ok (.str "Bar_1")⟩

/-- Method `Bar_2`. -/
def Foo.Bar_2 (_f : Foo) (x y : Value) : Run Value :=
  ⟨[⟨"%d %d\n", [x, y]⟩], .ok (.str "Bar_2")⟩

/-- Method `Bar_2_VA`; the variadic tail arrives as one slice operand of Printf. -/
def Foo.Bar_2_VA (_f : Foo) (x y : Value) (xs : List Value) : Run Value :=
  ⟨[⟨"%d %d %d\n", [x, y, .slice xs]⟩], .ok (.str "Bar_2_VA")⟩

/-- A `reflect.Value`: `none` is the zero Value (Kind `Invalid`), `some v` wraps `v`. -/
abbrev ReflectValue := Option Value

/-- Function `reflect.ValueOf`: the zero Value for a nil interface. -/
def reflect.ValueOf (x : Value) : ReflectValue :=
  match x with
  | .nil => none
  | v => some v

/-- The interface values held by a list of reflect Values; `none` when one of them is
the zero Value. -/
def ReflectValue.interfaces : List ReflectValue → Option (List Value)
  | [] => some []
  | none :: _ => none
  | some v :: rest =>
    match ReflectValue.interfaces rest with
    | some vs => some (v :: vs)
    | none => none

/-- The expression `v.MethodByName("Bar_2_VA").Call(vs)[0].Interface()`. The method has
two fixed inputs and a variadic one, so reflect's `Call` wants at least two inputs,
refuses a zero Value among them, packs the inputs after the second into the variadic
slice, and calls the method. Every input is assignable to `interface{}`. -/
def Foo.Call_Bar_2_VA (f : Foo) (vs : List ReflectValue) : Run Value :=
  match vs with
  | [] => ⟨[], .error (.msg "reflect: Call with too few input arguments")⟩
  | [_] => ⟨[], .error (.msg "reflect: Call with too few input arguments")⟩
  | a :: b :: rest =>
    match a, b, ReflectValue.interfaces rest with
    | some x, some y, some xs => f.Bar_2_VA x y xs
    | _, _, _ => ⟨[], .error (.msg "reflect: Call using zero Value argument")⟩

/-- Method `Bar_ApplyTo`. -/
def Foo.Bar_ApplyTo (f : Foo) (xs : List Value) : Run Value :=
  let l := xs.length
  if l > 2 then
    let vs := xs.map reflect.ValueOf
    f.Call_Bar_2_VA vs
  else if h1 : l = 1 then
    f.Bar_1 (xs.get ⟨0, by omega⟩)
  else if h2 : l = 2 then
    f.Bar_2 (xs.get ⟨0, by omega⟩) (xs.get ⟨1, by omega⟩)
  else
    ⟨[], .error (.msg ("Invalid arity: " ++ toString l))⟩

/-- Method `Bar`, called as `f.Bar(xs...)`. -/
def Foo.Bar (f : Foo) (xs : List Value) : Run Value :=
  let l := xs.length
  if l > 2 then
    f.Bar_ApplyTo xs
  else if h1 : l = 1 then
    f.Bar_1 (xs.get ⟨0, by omega⟩)
  else if h2 : l = 2 then
    f.Bar_2 (xs.get ⟨0, by omega⟩) (xs.get ⟨1, by omega⟩)
  else
    ⟨[], .error (.msg ("Invalid arity: " ++ toString l))⟩

/-- The type assertion `x.(float64)`. -/
def assertFloat64 (x : Value) : Except Panic F64 :=
  match x with
  | .float64 v => .ok v
  | v => .error (.typeAssertion v.dynType .float64)

/-- The type assertion `x.(int64)`. -/
def assertInt64 (x : Value) : Except Panic Int :=
  match x with
  | .int64 n => .ok n
  | v => .error (.typeAssertion v.dynType .int64)

/-- Conversion to int64 of an integer: the 64-bit two's complement wrap. -/
def wrap64 (n : Int) : Int :=
  (n + 2 ^ 63) % 2 ^ 64 - 2 ^ 63

/-- Whether the dynamic type is one of `int`, `int64`, `float64`. -/
def Value.isNumeric (x : Value) : Bool :=
  x.dynType = some .int || x.dynType = some .int64 || x.dynType = some .float64

/-- Function `double`. -/
def double (x : Value) : Except Panic F64 :=
  match x with
  | .int n => .ok (F64.ofInt n)
  | .int64 n => .ok (F64.ofInt n)
  | v => assertFloat64 v

/-- Function `long`. -/
def long (x : Value) : Except Panic Int :=
  match x with
  | .int n => .ok (wrap64 n)
  | .float64 v => .ok (F64.toInt64 v)
  | v => assertInt64 v

/-- Function `plus_one`: `double(x) + 1`, boxed as an interface value. -/
def plus_one (x : Value) : Except Panic Value :=
  match double x with
  | .ok d => .ok (.float64 (F64.add d F64.one))
  | .error p => .error p

/-! ## goog/object/object.go -/

/-- The type assertion `x.(string)`. -/
def assertString (x : Value) : Except Panic String :=
  match x with
  | .str s => .ok s
  | v => .error (.typeAssertion v.dynType .string)

/-- The index expression `xs[i]` on a slice. -/
def sliceIndex (xs : List Value) (i : Nat) : Except Panic Value :=
  match xs[i]? with
  | some v => .ok v
  | none => .error (.indexOutOfRange i xs.length)

/-- The assignment `obj[k] = v` on a map held as its list of entries, one per key: the
entry of `k` is replaced when there is one, else a new entry is added. -/
def mapSet (obj : List (String × Value)) (k : String) (v : Value) : List (String × Value) :=
  match obj with
  | [] => [(k, v)]
  | (k1, v1) :: rest => if k1 = k then (k, v) :: rest else (k1, v1) :: mapSet rest k v

/-- The read `obj[k]` on a map held as its list of entries: the value of the entry of
`k`, or `none` when `k` is not a key. -/
def mapGet (obj : List (String × Value)) (k : String) : Option Value :=
  match obj with
  | [] => none
  | (k1, v1) :: rest => if k1 = k then some v1 else mapGet rest k

/-- The loop of `Create` from index `i` on, with `obj` built so far. In the assignment
the operands are evaluated from left to right: the key `keyvals[i].(string)`, then the
value `keyvals[i+1]`. Every turn adds two to `i` (the `i++` of the body and that of the
loop), so `fuel` turns are enough as soon as `len(keyvals) ≤ i + 2 * fuel`. -/
def Create.loop (keyvals : List Value) :
    Nat → Nat → List (String × Value) → Except Panic (List (String × Value))
  | 0, _, obj => .ok obj
  | fuel + 1, i, obj =>
    if i < keyvals.length then
      match sliceIndex keyvals i with
      | .error p => .error p
      | .ok k =>
        match assertString k with
        | .error p => .error p
        | .ok s =>
          match sliceIndex keyvals (i + 1) with
          | .error p => .error p
          | .ok v => Create.loop keyvals fuel (i + 1 + 1) (mapSet obj s v)
    else .ok obj

/-- Function `Create`, called as `Create(keyvals...)`. -/
def Create (keyvals : List Value) : Except Panic (List (String × Value)) :=
  Create.loop keyvals keyvals.length 0 []

/-- The same loop read off the part of `keyvals` from index `i` on (`len` is the length
of the whole slice); used to reason about `Create.loop`. -/
def Create.rest (len : Nat) :
    Nat → List Value → List (String × Value) → Except Panic (List (String × Value))
  | _, [], obj => .ok obj
  | i, [k], _ =>
    match assertString k with
    | .error p => .error p
    | .ok _ => .error (.indexOutOfRange (i + 1) len)
  | i, k :: v :: more, obj =>
    match assertString k with
    | .error p => .error p
    | .ok s => Create.rest len (i + 1 + 1) more (mapSet obj s v)

/-- The argument list `k0, v0, k1, v1, ...` made of the given pairs, keys as strings. -/
def keyvalsOf : List (String × Value) → List Value
  | [] => []
  | (k, v) :: rest => .str k :: v :: keyvalsOf rest

/-- Whether the elements at the even indices `0, 2, 4, ...` are all strings. -/
def stringKeys : List Value → Bool
  | [] => true
  | [k] => decide (k.dynType = some .string)
  | k :: _ :: more => decide (k.dynType = some .string) && stringKeys more

/-- A non-nil Go func of type `func(k, v, obj interface{}) interface{}`. A call gets the
three arguments and what it can reach: the entries the map has at that moment and a
state `σ` of its own. It ends by returning a value or by a panic, and leaves behind the
entries of the map (it may have deleted, added or overwritten some) and its state. -/
abbrev Callback (σ : Type) :=
  Value → Value → Value → List (String × Value) × σ →
    Except Panic Value × (List (String × Value) × σ)

/-- One way the runtime may carry out a `range` over the map with entries `obj`: the
keys in the order in which it comes to them, each once. Every key of the map at the
start is among them. Other keys may be among them too: that is how an entry added on
the way comes to be produced, or is skipped when its key is not listed or comes before
the entry exists. -/
structure MapRange (obj : List (String × Value)) where
  order : List String
  nodup : order.Nodup
  covers : ∀ kv ∈ obj, kv.1 ∈ order

/-- The loop `for k, v := range obj { f(k, v, obj) }` over the keys still to come,
`cur` being the entries of the map now and `s` the state of the callback. A key whose
entry is not in the map when the loop comes to it, because it was deleted or does not
exist yet, is passed over; otherwise `f` is called with the key, the value the map
holds now and the map. Calling a nil `f` panics, and a panic of `f` ends the loop. -/
def ForEach.loop {σ : Type} (f : Option (Callback σ)) :
    List String → List (String × Value) → σ →
      Except Panic Unit × (List (String × Value) × σ)
  | [], cur, s => (.ok (), (cur, s))
  | k :: ks, cur, s =>
    match mapGet cur k with
    | none => ForEach.loop f ks cur s
    | some v =>
      match f with
      | none => (.error .nilDereference, (cur, s))
      | some g =>
        match g (.str k) v (.map cur) (cur, s) with
        | (.ok _, st) => ForEach.loop f ks st.1 st.2
        | (.error p, st) => (.error p, st)

/-- Function `ForEach` on the map with entries `obj`, iterated as `r` says, with the
func value `f` (`none` for a nil func): how it ends, with nil or a panic, and the
entries of the map and the state of the callback afterwards. -/
def ForEach {σ : Type} (obj : List (String × Value)) (r : MapRange obj)
    (f : Option (Callback σ)) (s : σ) :
    Except Panic Value × (List (String × Value) × σ) :=
  match ForEach.loop f r.order obj s with
  | (.ok _, st) => (.ok Value.nil, st)
  | (.error p, st) => (.error p, st)

end Cljs2go

namespace Cljs2go

/-! ## Dispatch -/

theorem Bar_one (f : Foo) (x : Value) : f.Bar [x] = f.Bar_1 x := by
  simp [Foo.Bar]

theorem Bar_two (f : Foo) (x y : Value) : f.Bar [x, y] = f.Bar_2 x y := by
  simp [Foo.Bar]

theorem ValueOf_eq_none_iff (x : Value) : reflect.ValueOf x = none ↔ x = .nil := by
  cases x <;> simp [reflect.ValueOf]

theorem ValueOf_of_ne_nil (x : Value) (h : x ≠ .nil) : reflect.ValueOf x = some x := by
  cases x <;> simp [reflect.ValueOf] at h ⊢

theorem interfaces_map_ValueOf (xs : List Value) (h : ∀ v ∈ xs, v ≠ .nil) :
    ReflectValue.interfaces (xs.map reflect.ValueOf) = some xs := by
  induction xs with
  | nil => rfl
  | cons a as ih =>
    have ha : a ≠ .nil := h a (List.mem_cons_self a as)
    have has : ∀ v ∈ as, v ≠ .nil := fun v hv => h v (List.mem_cons_of_mem a hv)
    simp [ReflectValue.interfaces, ValueOf_of_ne_nil a ha, ih has]

theorem interfaces_map_ValueOf_nil (xs : List Value) (h : Value.nil ∈ xs) :
    ReflectValue.interfaces (xs.map reflect.ValueOf) = none := by
  induction xs with
  | nil => simp at h
  | cons a as ih =>
    cases a with
    | nil => simp [ReflectValue.interfaces, reflect.ValueOf]
    | _ =>
      have has : Value.nil ∈ as := by simpa using h
      simp [ReflectValue.interfaces, reflect.ValueOf, ih has]

/-- With more than two arguments both entry points reach reflect's call of `Bar_2_VA`. -/
theorem Bar_ApplyTo_many (f : Foo) (x y z : Value) (rest : List Value) :
    f.Bar_ApplyTo (x :: y :: z :: rest)
      = f.Call_Bar_2_VA ((x :: y :: z :: rest).map reflect.ValueOf) := by
  simp [Foo.Bar_ApplyTo]

theorem Bar_many (f : Foo) (x y z : Value) (rest : List Value) :
    f.Bar (x :: y :: z :: rest) = f.Bar_ApplyTo (x :: y :: z :: rest) := by
  simp [Foo.Bar]

/-- More than two arguments, none of them the nil interface: the variadic handler runs
on the first two and the tail. -/
theorem Bar_ApplyTo_variadic (f : Foo) (x y z : Value) (rest : List Value)
    (h : ∀ v ∈ x :: y :: z :: rest, v ≠ .nil) :
    f.Bar_ApplyTo (x :: y :: z :: rest) = f.Bar_2_VA x y (z :: rest) := by
  have hx : x ≠ .nil := h x (by simp)
  have hy : y ≠ .nil := h y (by simp)
  have ht : ∀ v ∈ z :: rest, v ≠ .nil := fun v hv => h v (by simp at hv ⊢; tauto)
  have hi := interfaces_map_ValueOf (z :: rest) ht
  rw [Bar_ApplyTo_many]
  simp only [List.map_cons] at hi ⊢
  simp only [Foo.Call_Bar_2_VA, ValueOf_of_ne_nil x hx, ValueOf_of_ne_nil y hy, hi]

/-- More than two arguments, one of them the nil interface: reflect's call panics and
no handler runs. -/
theorem Bar_ApplyTo_nil_arg (f : Foo) (x y z : Value) (rest : List Value)
    (h : Value.nil ∈ x :: y :: z :: rest) :
    f.Bar_ApplyTo (x :: y :: z :: rest)
      = ⟨[], .error (.msg "reflect: Call using zero Value argument")⟩ := by
  rw [Bar_ApplyTo_many]
  simp only [List.map_cons, Foo.Call_Bar_2_VA]
  by_cases hx : x = .nil
  · subst hx; simp [reflect.ValueOf]
  by_cases hy : y = .nil
  · subst hy; rw [ValueOf_of_ne_nil x hx]; simp [reflect.ValueOf]
  have ht : Value.nil ∈ z :: rest := by
    simp only [List.mem_cons] at h ⊢
    rcases h with h | h | h
    · exact absurd h.symm hx
    · exact absurd h.symm hy
    · exact h
  have hi := interfaces_map_ValueOf_nil (z :: rest) ht
  simp only [List.map_cons] at hi
  rw [ValueOf_of_ne_nil x hx, ValueOf_of_ne_nil y hy, hi]

/-- The two entry points behave alike on every argument list. -/
theorem Bar_eq_Bar_ApplyTo (f : Foo) (xs : List Value) : f.Bar xs = f.Bar_ApplyTo xs := by
  unfold Foo.Bar Foo.Bar_ApplyTo
  by_cases h : xs.length > 2
  · simp only [h, if_true]
  · simp only [h, if_false]

/-- More than two arguments, none of them the nil interface, through `Bar`. -/
theorem Bar_variadic (f : Foo) (x y z : Value) (rest : List Value)
    (h : ∀ v ∈ x :: y :: z :: rest, v ≠ .nil) :
    f.Bar (x :: y :: z :: rest) = f.Bar_2_VA x y (z :: rest) := by
  rw [Bar_many, Bar_ApplyTo_variadic f x y z rest h]

/-- More than two arguments, one of them the nil interface, through `Bar`. -/
theorem Bar_nil_arg (f : Foo) (x y z : Value) (rest : List Value)
    (h : Value.nil ∈ x :: y :: z :: rest) :
    f.Bar (x :: y :: z :: rest)
      = ⟨[], .error (.msg "reflect: Call using zero Value argument")⟩ := by
  rw [Bar_many, Bar_ApplyTo_nil_arg f x y z rest h]

theorem reflect_message_ne_arity_message (s : String) :
    "reflect: Call using zero Value argument" ≠ "Invalid arity: " ++ s := by
  intro h
  have hd := congrArg String.data h
  rw [String.data_append] at hd
  have h0 := congrArg List.head? hd
  simp at h0

/-- The panic "Invalid arity: N" is raised on the empty argument list and on no other. -/
theorem Bar_invalid_arity_iff (f : Foo) (xs : List Value) :
    (∃ s, (f.Bar xs).res = .error (.msg ("Invalid arity: " ++ s))) ↔ xs = [] := by
  constructor
  · rintro ⟨s, hs⟩
    match xs, hs with
    | [], _ => rfl
    | [x], hs => simp [Bar_one, Foo.Bar_1] at hs
    | [x, y], hs => simp [Bar_two, Foo.Bar_2] at hs
    | x :: y :: z :: rest, hs =>
      exfalso
      by_cases hn : Value.nil ∈ x :: y :: z :: rest
      · rw [Bar_nil_arg f x y z rest hn] at hs
        simp only [Except.error.injEq, Panic.msg.injEq] at hs
        exact reflect_message_ne_arity_message s hs
      · have hall : ∀ v ∈ x :: y :: z :: rest, v ≠ .nil := fun v hv hv0 => hn (hv0 ▸ hv)
        rw [Bar_variadic f x y z rest hall] at hs
        simp [Foo.Bar_2_VA] at hs
  · rintro rfl
    exact ⟨"0", rfl⟩

/-- C1: an argument list of length 1 or 2 is handed to the handler of that arity and to
no other. A one-element list `[x]` makes `Bar` behave as `Bar_1 x`: the single line
printed is that of `Bar_1` on `x` and the result is "Bar_1". A two-element list `[x, y]`
makes it behave as `Bar_2 x y`: the single line printed is that of `Bar_2` on `x`, `y`
in this order and the result is "Bar_2". -/
theorem Bar_fixed_arity (f : Foo) (xs : List Value)
    (h : xs.length = 1 ∨ xs.length = 2) :
    (∃ x, xs = [x] ∧ f.Bar xs = f.Bar_1 x ∧
        f.Bar xs = ⟨[⟨"%d\n", [x]⟩], .ok (.str "Bar_1")⟩) ∨
    (∃ x y, xs = [x, y] ∧ f.Bar xs = f.Bar_2 x y ∧
        f.Bar xs = ⟨[⟨"%d %d\n", [x, y]⟩], .ok (.str "Bar_2")⟩) := by
  rcases h with h | h
  · left
    obtain ⟨x, rfl⟩ := List.length_eq_one.mp h
    exact ⟨x, rfl, Bar_one f x, by rw [Bar_one]; rfl⟩
  · right
    obtain ⟨x, y, rfl⟩ := List.length_eq_two.mp h
    exact ⟨x, y, rfl, Bar_two f x y, by rw [Bar_two]; rfl⟩

theorem Bar_fixed_arity_witness :
    ([Value.int 2, Value.int 3].length = 1 ∨ [Value.int 2, Value.int 3].length = 2) ∧
    ((∃ x, [Value.int 2, Value.int 3] = [x] ∧
        Foo.Bar {} [Value.int 2, Value.int 3] = Foo.Bar_1 {} x ∧
        Foo.Bar {} [Value.int 2, Value.int 3] = ⟨[⟨"%d\n", [x]⟩], .ok (.str "Bar_1")⟩) ∨
     (∃ x y, [Value.int 2, Value.int 3] = [x, y] ∧
        Foo.Bar {} [Value.int 2, Value.int 3] = Foo.Bar_2 {} x y ∧
        Foo.Bar {} [Value.int 2, Value.int 3]
          = ⟨[⟨"%d %d\n", [x, y]⟩], .ok (.str "Bar_2")⟩)) :=
  ⟨by decide, Bar_fixed_arity {} [Value.int 2, Value.int 3] (by decide)⟩

/-- C2: the call `Bar(1, 2, nil)` has three arguments, yet the variadic handler does not
run and "Bar_2_VA" is not returned: `reflect.ValueOf(nil)` is the zero Value, which
reflect's `Call` refuses, so the dispatch panics having printed nothing. The handler
itself, called directly on the same arguments, prints its line and returns "Bar_2_VA". -/
theorem Bar_variadic_nil_argument :
    Foo.Bar {} [.int 1, .int 2, .nil]
      = ⟨[], .error (.msg "reflect: Call using zero Value argument")⟩ ∧
    Foo.Bar_2_VA {} (.int 1) (.int 2) [.nil]
      = ⟨[⟨"%d %d %d\n", [.int 1, .int 2, .slice [.nil]]⟩], .ok (.str "Bar_2_VA")⟩ :=
  ⟨rfl, rfl⟩

/-- C3: `Bar` without arguments returns no result: it panics with the message
"Invalid arity: 0", and as nothing was printed no handler has run. -/
theorem Bar_no_arguments (f : Foo) :
    f.Bar [] = ⟨[], .error (.msg "Invalid arity: 0")⟩ := by
  rfl

/-- C4: on the list `[nil, "a", 3]` the entry points `Bar` and `Bar_ApplyTo` end alike,
but neither in an unsupported-arity failure nor in a result: both panic inside
reflect's `Call`, because of the nil element. -/
theorem Bar_and_Bar_ApplyTo_nil_argument :
    Foo.Bar {} [.nil, .str "a", .int 3]
      = ⟨[], .error (.msg "reflect: Call using zero Value argument")⟩ ∧
    Foo.Bar_ApplyTo {} [.nil, .str "a", .int 3]
      = ⟨[], .error (.msg "reflect: Call using zero Value argument")⟩ ∧
    "reflect: Call using zero Value argument" ≠ "Invalid arity: 3" :=
  ⟨rfl, rfl, by decide⟩

/-- C5: the list `[nil, nil, nil]` is not empty and still both `Bar` and `Bar_ApplyTo`
fail on it, with a panic of reflect's `Call` in place of a result. -/
theorem Bar_fails_on_nonempty_list :
    ([.nil, .nil, .nil] : List Value).length = 3 ∧
    (Foo.Bar {} [.nil, .nil, .nil]).res
      = .error (.msg "reflect: Call using zero Value argument") ∧
    (Foo.Bar_ApplyTo {} [.nil, .nil, .nil]).res
      = .error (.msg "reflect: Call using zero Value argument") :=
  ⟨rfl, rfl, rfl⟩

/-- C6: the lists `[1, 2, 3]` and `[1, 2, nil]` have the same length, and `Bar` (like
`Bar_ApplyTo`) returns "Bar_2_VA" on the first and panics on the second: the outcome
depends on whether an element is nil, not on the length alone. -/
theorem Bar_outcome_depends_on_elements :
    ([.int 1, .int 2, .int 3] : List Value).length
      = ([.int 1, .int 2, .nil] : List Value).length ∧
    (Foo.Bar {} [.int 1, .int 2, .int 3]).res = .ok (.str "Bar_2_VA") ∧
    (Foo.Bar {} [.int 1, .int 2, .nil]).res
      = .error (.msg "reflect: Call using zero Value argument") ∧
    (Foo.Bar_ApplyTo {} [.int 1, .int 2, .int 3]).res = .ok (.str "Bar_2_VA") ∧
    (Foo.Bar_ApplyTo {} [.int 1, .int 2, .nil]).res
      = .error (.msg "reflect: Call using zero Value argument") :=
  ⟨rfl, rfl, rfl, rfl, rfl⟩

/-! ## Numeric coercion -/

namespace F64

theorem bitLen_zero (fuel : Nat) : bitLen fuel 0 = 0 := by
  cases fuel <;> simp [bitLen]

theorem bitLen_lt_two_pow (fuel n : Nat) : n ≤ fuel → n < 2 ^ bitLen fuel n := by
  induction fuel generalizing n with
  | zero => intro h; simp [bitLen]; omega
  | succ k ih =>
    intro h
    by_cases hn : n = 0
    · subst hn; simp
    · have h2 : n / 2 ≤ k := by omega
      have := ih (n / 2) h2
      simp only [bitLen, hn, if_false, pow_succ]
      omega

theorem two_pow_le_of_bitLen (fuel n : Nat) :
    n ≤ fuel → n ≠ 0 → 2 ^ (bitLen fuel n - 1) ≤ n := by
  induction fuel generalizing n with
  | zero => intro h hn; omega
  | succ k ih =>
    intro h hn
    simp only [bitLen, hn, if_false, Nat.add_sub_cancel]
    by_cases h1 : n / 2 = 0
    · rw [h1, bitLen_zero]; simp; omega
    · have h2 : n / 2 ≤ k := by omega
      have h3 := ih (n / 2) h2 h1
      have h4 : bitLen k (n / 2) ≠ 0 := by
        cases k with
        | zero => omega
        | succ j => simp [bitLen, h1]
      obtain ⟨c, hc⟩ := Nat.exists_eq_succ_of_ne_zero h4
      rw [hc] at h3 ⊢
      simp only [Nat.succ_sub_one] at h3
      rw [pow_succ]
      omega

theorem two_zpow_toNat (a : Int) (h : 0 ≤ a) : ((2 : ℚ) ^ a.toNat) = (2 : ℚ) ^ a := by
  rw [← zpow_natCast, Int.toNat_of_nonneg h]

theorem signed_cast_mul (neg : Bool) (a : Nat) (x y : ℚ) (h : (a : ℚ) * x = y) :
    ((signed neg a : ℤ) : ℚ) * x = if neg then -y else y := by
  cases neg <;> simp [signed, h]

/-- Value kept by `scaled` when nothing has to be rounded away. -/
theorem scaled_exact (m : Nat) (e q : Int) (h : q ≤ e ∨ 2 ^ (q - e).toNat ∣ m) :
    ((scaled m e q : Nat) : ℚ) * 2 ^ q = (m : ℚ) * 2 ^ e := by
  unfold scaled
  by_cases hq : q ≤ e
  · simp only [hq, if_true, Nat.cast_mul, Nat.cast_pow, Nat.cast_ofNat]
    rw [two_zpow_toNat _ (by omega), mul_assoc, ← zpow_add₀ (by norm_num)]
    congr 2
    omega
  · have hd : 2 ^ (q - e).toNat ∣ m := by
      rcases h with h | h
      · exact absurd h hq
      · exact h
    have hlo : m % 2 ^ (q - e).toNat = 0 := Nat.mod_eq_zero_of_dvd hd
    have hhalf : 0 < 2 ^ ((q - e).toNat - 1) := by positivity
    have hcond : ¬ (2 ^ ((q - e).toNat - 1) < m % 2 ^ (q - e).toNat ∨
        (m % 2 ^ (q - e).toNat = 2 ^ ((q - e).toNat - 1) ∧
          m / 2 ^ (q - e).toNat % 2 = 1)) := by
      rw [hlo]
      omega
    simp only [hq, if_false, hcond]
    have hmul : m / 2 ^ (q - e).toNat * 2 ^ (q - e).toNat = m := Nat.div_mul_cancel hd
    have hc : ((m / 2 ^ (q - e).toNat : Nat) : ℚ) * (2 : ℚ) ^ (q - e) = (m : ℚ) := by
      rw [← two_zpow_toNat _ (by omega)]
      exact_mod_cast hmul
    rw [← hc, mul_assoc, ← zpow_add₀ (by norm_num)]
    congr 2
    omega

theorem one_le_bitLen (m : Nat) (hm : m ≠ 0) : 1 ≤ bitLen m m := by
  have h := bitLen_lt_two_pow m m le_rfl
  by_contra hc
  have h0 : bitLen m m = 0 := by omega
  rw [h0] at h
  simp at h
  exact hm h

/-- The last place `round` keeps is not above the last place of any binary64 notation
`M * 2^Q` of the same number. -/
theorem quantum_le (m : Nat) (e : Int) (M : Nat) (Q : Int) (hm : m ≠ 0)
    (hM : M < 2 ^ 53) (hQ : -1074 ≤ Q) (hv : (m : ℚ) * 2 ^ e = (M : ℚ) * 2 ^ Q) :
    quantum m e ≤ Q := by
  have hlo := two_pow_le_of_bitLen m m le_rfl hm
  have hL := one_le_bitLen m hm
  unfold quantum
  apply max_le _ hQ
  have h1 : ((2 : ℚ) ^ (bitLen m m - 1)) ≤ (m : ℚ) := by exact_mod_cast hlo
  have hM' : (M : ℚ) < (2 : ℚ) ^ (53 : ℤ) := by
    rw [show (53 : ℤ) = ((53 : ℕ) : ℤ) from rfl, zpow_natCast]
    exact_mod_cast hM
  have hpos : (0 : ℚ) < (2 : ℚ) ^ Q := zpow_pos (by norm_num) Q
  have hpos' : (0 : ℚ) < (2 : ℚ) ^ e := zpow_pos (by norm_num) e
  have h3 : (2 : ℚ) ^ (((bitLen m m - 1 : ℕ) : ℤ) + e) < (2 : ℚ) ^ (53 + Q) := by
    rw [zpow_add₀ (by norm_num), zpow_add₀ (by norm_num), zpow_natCast]
    calc (2 : ℚ) ^ (bitLen m m - 1) * 2 ^ e ≤ (m : ℚ) * 2 ^ e :=
          mul_le_mul_of_nonneg_right h1 hpos'.le
      _ = (M : ℚ) * 2 ^ Q := hv
      _ < (2 : ℚ) ^ (53 : ℤ) * 2 ^ Q := mul_lt_mul_of_pos_right hM' hpos
  have h4 := (zpow_lt_zpow_iff_right₀ (by norm_num : (1 : ℚ) < 2)).mp h3
  omega

/-- A number with a binary64 notation has no digit below the last place `round` keeps. -/
theorem quantum_exact (m : Nat) (e : Int) (M : Nat) (Q : Int)
    (hqQ : quantum m e ≤ Q) (hv : (m : ℚ) * 2 ^ e = (M : ℚ) * 2 ^ Q) :
    quantum m e ≤ e ∨ 2 ^ (quantum m e - e).toNat ∣ m := by
  by_cases hqe : quantum m e ≤ e
  · exact Or.inl hqe
  · right
    have hQe : 0 ≤ Q - e := by omega
    have hmq : (m : ℚ) = (M : ℚ) * 2 ^ (Q - e) := by
      have h1 : (m : ℚ) = (m : ℚ) * 2 ^ e * 2 ^ (-e) := by
        rw [mul_assoc, ← zpow_add₀ (by norm_num)]
        simp
      rw [h1, hv, mul_assoc, ← zpow_add₀ (by norm_num)]
      congr 2
    rw [← two_zpow_toNat _ hQe] at hmq
    have hnat : m = M * 2 ^ (Q - e).toNat := by exact_mod_cast hmq
    exact (pow_dvd_pow 2 (by omega)).trans (Dvd.intro_left M hnat.symm)

/-- Rounding is exact on a number that has a binary64 notation `M * 2^Q`. -/
theorem round_exact (neg : Bool) (m : Nat) (e : Int) (M : Nat) (Q : Int)
    (hm : m ≠ 0) (hM : M < 2 ^ 53) (hQ : -1074 ≤ Q) (hQ2 : Q ≤ 971)
    (hv : (m : ℚ) * 2 ^ e = (M : ℚ) * 2 ^ Q) :
    toRat (round neg m e) = some (((signed neg m : ℤ) : ℚ) * 2 ^ e) := by
  have hqQ := quantum_le m e M Q hm hM hQ hv
  have hs := scaled_exact m e (quantum m e) (quantum_exact m e M Q hqQ hv)
  have hpos : (0 : ℚ) < (2 : ℚ) ^ Q := zpow_pos (by norm_num) Q
  unfold round
  simp only [hm, if_false]
  by_cases hc : scaled m e (quantum m e) = 2 ^ 53
  · have hlt : quantum m e < Q := by
      by_contra hge
      have hEq : quantum m e = Q := by omega
      rw [hc, hv, hEq] at hs
      have h5 : ((2 ^ 53 : Nat) : ℚ) = (M : ℚ) := mul_right_cancel₀ hpos.ne' hs
      have h6 : 2 ^ 53 = M := by exact_mod_cast h5
      omega
    have hno : ¬ (971 < quantum m e + 1) := by omega
    simp only [hc, if_true, hno, if_false, toRat]
    congr 1
    rw [signed_cast_mul neg (2 ^ 52) _ ((m : ℚ) * 2 ^ e), signed_cast_mul neg m _ _ rfl]
    rw [← hs, hc, zpow_add₀ (by norm_num)]
    push_cast
    ring
  · have hno : ¬ (971 < quantum m e) := by omega
    simp only [hc, if_false, hno, toRat]
    congr 1
    rw [signed_cast_mul neg _ _ _ hs, signed_cast_mul neg m _ _ rfl]

theorem signed_natAbs (s : Int) : signed (decide (s < 0)) s.natAbs = s := by
  unfold signed
  by_cases h : s < 0
  · simp only [h, decide_True, if_true]
    omega
  · simp only [h, decide_False]
    simp only [Bool.false_eq_true, if_false]
    omega

/-- The integer sum `add` forms, at the smaller of the two exponents, is the exact sum
of the two numbers. -/
theorem aligned_sum (s1 s2 : Bool) (m1 m2 : Nat) (q1 q2 : Int) :
    (((signed s1 (m1 * 2 ^ (q1 - min q1 q2).toNat)
        + signed s2 (m2 * 2 ^ (q2 - min q1 q2).toNat) : ℤ)) : ℚ) * 2 ^ (min q1 q2)
      = ((signed s1 m1 : ℤ) : ℚ) * 2 ^ q1 + ((signed s2 m2 : ℤ) : ℚ) * 2 ^ q2 := by
  have h1 : 0 ≤ q1 - min q1 q2 := by omega
  have h2 : 0 ≤ q2 - min q1 q2 := by omega
  have e1 : ((m1 * 2 ^ (q1 - min q1 q2).toNat : Nat) : ℚ) * 2 ^ (min q1 q2)
      = (m1 : ℚ) * 2 ^ q1 := by
    push_cast
    rw [two_zpow_toNat _ h1, mul_assoc, ← zpow_add₀ (by norm_num)]
    congr 2
    omega
  have e2 : ((m2 * 2 ^ (q2 - min q1 q2).toNat : Nat) : ℚ) * 2 ^ (min q1 q2)
      = (m2 : ℚ) * 2 ^ q2 := by
    push_cast
    rw [two_zpow_toNat _ h2, mul_assoc, ← zpow_add₀ (by norm_num)]
    congr 2
    omega
  rw [Int.cast_add, add_mul, signed_cast_mul s1 _ _ _ e1, signed_cast_mul s2 _ _ _ e2,
    signed_cast_mul s1 m1 _ _ rfl, signed_cast_mul s2 m2 _ _ rfl]

/-- Addition is exact when the exact sum of two finite numbers has a binary64 notation
`M * 2^Q`. -/
theorem add_exact (s1 s2 : Bool) (m1 m2 : Nat) (q1 q2 : Int) (M : Nat) (Q : Int)
    (hM : M < 2 ^ 53) (hQ : -1074 ≤ Q) (hQ2 : Q ≤ 971)
    (hv : |((signed s1 m1 : ℤ) : ℚ) * 2 ^ q1 + ((signed s2 m2 : ℤ) : ℚ) * 2 ^ q2|
      = (M : ℚ) * 2 ^ Q) :
    toRat (add (fin s1 m1 q1) (fin s2 m2 q2))
      = some (((signed s1 m1 : ℤ) : ℚ) * 2 ^ q1 + ((signed s2 m2 : ℤ) : ℚ) * 2 ^ q2) := by
  have hsum := aligned_sum s1 s2 m1 m2 q1 q2
  have hpos : (0 : ℚ) < (2 : ℚ) ^ (min q1 q2) := zpow_pos (by norm_num) _
  simp only [add]
  generalize signed s1 (m1 * 2 ^ (q1 - min q1 q2).toNat)
    + signed s2 (m2 * 2 ^ (q2 - min q1 q2).toNat) = s at hsum ⊢
  by_cases h0 : s = 0
  · simp only [h0, if_true, toRat]
    rw [← hsum, h0]
    simp [signed]
  · simp only [h0, if_false]
    have habs : ((s.natAbs : Nat) : ℚ) * 2 ^ (min q1 q2) = (M : ℚ) * 2 ^ Q := by
      rw [← hv, ← hsum, abs_mul, abs_of_pos hpos, Nat.cast_natAbs, Int.cast_abs]
    rw [round_exact _ s.natAbs (min q1 q2) M Q (by omega) hM hQ hQ2 habs, signed_natAbs,
      hsum]

theorem int_has_notation (k : Int) (h : k.natAbs ≤ 2 ^ 53) :
    ∃ (M : Nat) (Q : Int), M < 2 ^ 53 ∧ -1074 ≤ Q ∧ Q ≤ 971 ∧
      |(k : ℚ)| = (M : ℚ) * 2 ^ Q := by
  have hk : |(k : ℚ)| = ((k.natAbs : Nat) : ℚ) := by
    rw [Nat.cast_natAbs, Int.cast_abs]
  by_cases hlt : k.natAbs < 2 ^ 53
  · exact ⟨k.natAbs, 0, hlt, by omega, by omega, by rw [hk]; simp⟩
  · have heq : k.natAbs = 2 ^ 53 := by omega
    refine ⟨2 ^ 52, 1, by norm_num, by omega, by omega, ?_⟩
    rw [hk, heq]
    norm_num

theorem toRat_one : toRat one = some 1 := by
  simp only [one, toRat, signed]
  norm_num

/-- Conversion of an integer of at most 53 bits (or `± 2^53`) is exact. -/
theorem ofInt_exact (n : Int) (h : n.natAbs ≤ 2 ^ 53) : toRat (ofInt n) = some (n : ℚ) := by
  unfold ofInt
  by_cases h0 : n = 0
  · subst h0
    simp [round, toRat, signed]
  · obtain ⟨M, Q, hM, hQ, hQ2, hv⟩ := int_has_notation n h
    have hv' : ((n.natAbs : Nat) : ℚ) * 2 ^ (0 : ℤ) = (M : ℚ) * 2 ^ Q := by
      rw [← hv, Nat.cast_natAbs, Int.cast_abs]
      simp
    rw [round_exact _ n.natAbs 0 M Q (by omega) hM hQ hQ2 hv', signed_natAbs]
    simp

theorem toRat_eq_some (x : F64) (v : ℚ) (h : toRat x = some v) :
    ∃ s m q, x = fin s m q ∧ ((signed s m : ℤ) : ℚ) * 2 ^ q = v := by
  cases x with
  | fin s m q => exact ⟨s, m, q, rfl, by simpa [toRat] using h⟩
  | inf s => simp [toRat] at h
  | nan => simp [toRat] at h

/-- For an integer `n` with `-2^53 ≤ n < 2^53` the float64 `float64(n) + 1` is the
number `n + 1`: neither the conversion nor the addition rounds. -/
theorem ofInt_add_one_exact (n : Int) (h1 : -(2 : Int) ^ 53 ≤ n) (h2 : n < (2 : Int) ^ 53) :
    toRat (add (ofInt n) one) = some ((n : ℚ) + 1) := by
  obtain ⟨s, m, q, hx, hval⟩ := toRat_eq_some _ _ (ofInt_exact n (by omega))
  obtain ⟨M, Q, hM, hQ, hQ2, hv⟩ := int_has_notation (n + 1) (by omega)
  have hone : ((signed false (2 ^ 52) : ℤ) : ℚ) * 2 ^ (-52 : ℤ) = 1 := by
    simp only [signed]
    norm_num
  have hv' : |((signed s m : ℤ) : ℚ) * 2 ^ q
      + ((signed false (2 ^ 52) : ℤ) : ℚ) * 2 ^ (-52 : ℤ)| = (M : ℚ) * 2 ^ Q := by
    rw [hval, hone, ← hv]
    push_cast
    rfl
  rw [hx, one, add_exact s false m (2 ^ 52) q (-52) M Q hM hQ hQ2 hv', hval, hone]

/-- What `scaled` keeps after dropping digits is a nearest multiple of the last place,
and the even one of the two when the dropped digits are exactly half of it. -/
theorem scaled_nearest (m : Nat) (e q : Int) (h : e < q) :
    2 * ((scaled m e q : Int) * ((2 ^ (q - e).toNat : Nat) : Int) - (m : Int)).natAbs
        ≤ 2 ^ (q - e).toNat ∧
    (2 * ((scaled m e q : Int) * ((2 ^ (q - e).toNat : Nat) : Int) - (m : Int)).natAbs
        = 2 ^ (q - e).toNat → scaled m e q % 2 = 0) := by
  obtain ⟨t, ht⟩ : ∃ t, (q - e).toNat = t + 1 := ⟨(q - e).toNat - 1, by omega⟩
  unfold scaled
  simp only [not_le.mpr h, if_false, ht, Nat.add_sub_cancel]
  have hP : 2 ^ (t + 1) = 2 * 2 ^ t := by rw [pow_succ]; ring
  have hdm := Nat.div_add_mod m (2 ^ (t + 1))
  have hlt := Nat.mod_lt m (show 0 < 2 ^ (t + 1) by positivity)
  generalize m / 2 ^ (t + 1) = hi at *
  generalize m % 2 ^ (t + 1) = lo at *
  rw [hP] at hdm hlt ⊢
  generalize 2 ^ t = H at *
  have hdm' : 2 * (H * hi) + lo = m := by rw [← hdm]; ring
  split_ifs with hc
  · have e1 : ((hi + 1 : Nat) : Int) * ((2 * H : Nat) : Int) - (m : Int)
        = 2 * (H : Int) - (lo : Int) := by
      rw [← hdm']
      push_cast
      ring
    rw [e1]
    omega
  · have e1 : ((hi : Nat) : Int) * ((2 * H : Nat) : Int) - (m : Int) = -(lo : Int) := by
      rw [← hdm']
      push_cast
      ring
    rw [e1]
    omega

/-- Short of overflow, `round` returns the finite number `scaled * 2^quantum` with the
sign it was given, at the exponent `quantum` or, after a carry, the next one. -/
theorem round_value (neg : Bool) (m : Nat) (e : Int) (hm : m ≠ 0)
    (hq : quantum m e ≤ 970) :
    ∃ (s1 : Nat) (q1 : Int), round neg m e = fin neg s1 q1 ∧ quantum m e ≤ q1 ∧
      (s1 : ℚ) * 2 ^ q1 = (scaled m e (quantum m e) : ℚ) * 2 ^ (quantum m e) := by
  unfold round
  simp only [hm, if_false]
  by_cases hc : scaled m e (quantum m e) = 2 ^ 53
  · have hno : ¬ (971 < quantum m e + 1) := by omega
    simp only [hc, if_true, hno, if_false]
    refine ⟨2 ^ 52, quantum m e + 1, rfl, by omega, ?_⟩
    rw [zpow_add₀ (by norm_num)]
    push_cast
    ring
  · have hno : ¬ (971 < quantum m e) := by omega
    simp only [hc, if_false, hno]
    exact ⟨_, _, rfl, le_rfl, rfl⟩

theorem abs_signed_sub (neg : Bool) (a b : ℚ) :
    |(if neg then -a else a) - (if neg then -b else b)| = |a - b| := by
  cases neg
  · simp
  · simp only [if_true]
    rw [show -a - -b = -(a - b) by ring, abs_neg]

/-- Short of overflow, `round` errs by at most half a unit of the last place. -/
theorem round_error (neg : Bool) (m : Nat) (e : Int) (hm : m ≠ 0)
    (hq : quantum m e ≤ 970) :
    ∃ r : ℚ, toRat (round neg m e) = some r ∧
      |r - ((signed neg m : ℤ) : ℚ) * 2 ^ e| * 2 ≤ 2 ^ (quantum m e) := by
  obtain ⟨s1, q1, hr, _, hval⟩ := round_value neg m e hm hq
  refine ⟨((signed neg s1 : ℤ) : ℚ) * 2 ^ q1, by rw [hr]; rfl, ?_⟩
  rw [signed_cast_mul neg s1 _ _ hval, signed_cast_mul neg m _ _ rfl, abs_signed_sub]
  have hpe : (0 : ℚ) < (2 : ℚ) ^ e := zpow_pos (by norm_num) e
  by_cases hqe : quantum m e ≤ e
  · rw [scaled_exact m e (quantum m e) (Or.inl hqe)]
    simp only [sub_self, abs_zero, zero_mul]
    exact (zpow_pos (by norm_num) _).le
  · have hlt : e < quantum m e := by omega
    have hn := (scaled_nearest m e (quantum m e) hlt).1
    have hsplit : (2 : ℚ) ^ (quantum m e)
        = ((2 ^ (quantum m e - e).toNat : Nat) : ℚ) * 2 ^ e := by
      push_cast
      rw [two_zpow_toNat _ (by omega), ← zpow_add₀ (by norm_num)]
      congr 1
      omega
    have hdiff : (scaled m e (quantum m e) : ℚ) * 2 ^ (quantum m e) - (m : ℚ) * 2 ^ e
        = (((scaled m e (quantum m e) : Int) * ((2 ^ (quantum m e - e).toNat : Nat) : Int)
            - (m : Int) : Int) : ℚ) * 2 ^ e := by
      rw [hsplit]
      push_cast
      ring
    rw [hdiff, abs_mul, abs_of_pos hpe, hsplit, ← Int.cast_abs, ← Nat.cast_natAbs]
    have hn' : (2 : ℚ) * ((((scaled m e (quantum m e) : Int)
        * ((2 ^ (quantum m e - e).toNat : Nat) : Int) - (m : Int)).natAbs : Nat) : ℚ)
        ≤ ((2 ^ (quantum m e - e).toNat : Nat) : ℚ) := by exact_mod_cast hn
    calc _ = (2 : ℚ) * ((((scaled m e (quantum m e) : Int)
          * ((2 ^ (quantum m e - e).toNat : Nat) : Int) - (m : Int)).natAbs : Nat) : ℚ)
          * 2 ^ e := by ring
      _ ≤ ((2 ^ (quantum m e - e).toNat : Nat) : ℚ) * 2 ^ e :=
          mul_le_mul_of_nonneg_right hn' hpe.le

/-- In the normal range and short of overflow, `round` errs by at most `2^-53` of the
number it rounds. -/
theorem round_rel_error (neg : Bool) (m : Nat) (e : Int) (hm : m ≠ 0)
    (hnorm : -1074 ≤ (bitLen m m : Int) - 1 + e - 52) (hq : quantum m e ≤ 970) :
    ∃ r : ℚ, toRat (round neg m e) = some r ∧
      |r - ((signed neg m : ℤ) : ℚ) * 2 ^ e| * 2 ^ 53
        ≤ |((signed neg m : ℤ) : ℚ) * 2 ^ e| := by
  obtain ⟨r, hr, herr⟩ := round_error neg m e hm hq
  refine ⟨r, hr, ?_⟩
  have hqv : quantum m e = (bitLen m m : Int) - 1 + e - 52 := by
    unfold quantum
    omega
  have hlo := two_pow_le_of_bitLen m m le_rfl hm
  have hL := one_le_bitLen m hm
  have hpe : (0 : ℚ) < (2 : ℚ) ^ e := zpow_pos (by norm_num) e
  have h1 : ((2 : ℚ) ^ (bitLen m m - 1)) ≤ (m : ℚ) := by exact_mod_cast hlo
  have habs : |((signed neg m : ℤ) : ℚ) * 2 ^ e| = (m : ℚ) * 2 ^ e := by
    rw [signed_cast_mul neg m _ _ rfl]
    have hnn : (0 : ℚ) ≤ (m : ℚ) * 2 ^ e := by positivity
    cases neg
    · simp only [Bool.false_eq_true, if_false]
      exact abs_of_nonneg hnn
    · simp only [if_true, abs_neg]
      exact abs_of_nonneg hnn
  have hpow : (2 : ℚ) ^ (quantum m e) * 2 ^ (52 : ℕ) = 2 ^ (bitLen m m - 1) * 2 ^ e := by
    rw [hqv, ← zpow_natCast (2 : ℚ) (bitLen m m - 1), ← zpow_natCast (2 : ℚ) 52,
      ← zpow_add₀ (by norm_num), ← zpow_add₀ (by norm_num)]
    congr 1
    push_cast
    omega
  rw [habs]
  calc |r - ((signed neg m : ℤ) : ℚ) * 2 ^ e| * 2 ^ 53
      = (|r - ((signed neg m : ℤ) : ℚ) * 2 ^ e| * 2) * 2 ^ (52 : ℕ) := by ring
    _ ≤ 2 ^ (quantum m e) * 2 ^ (52 : ℕ) := mul_le_mul_of_nonneg_right herr (by positivity)
    _ = 2 ^ (bitLen m m - 1) * 2 ^ e := hpow
    _ ≤ (m : ℚ) * 2 ^ e := mul_le_mul_of_nonneg_right h1 hpe.le

theorem quantum_le_of_lt (m : Nat) (e K : Int) (hm : m ≠ 0) (hK : K ≤ 1023)
    (hv : (m : ℚ) * 2 ^ e < 2 ^ K) : quantum m e ≤ 970 := by
  have hlo := two_pow_le_of_bitLen m m le_rfl hm
  have hL := one_le_bitLen m hm
  have hpe : (0 : ℚ) < (2 : ℚ) ^ e := zpow_pos (by norm_num) e
  have h1 : ((2 : ℚ) ^ (bitLen m m - 1)) ≤ (m : ℚ) := by exact_mod_cast hlo
  have h3 : (2 : ℚ) ^ (((bitLen m m - 1 : ℕ) : ℤ) + e) < (2 : ℚ) ^ K := by
    rw [zpow_add₀ (by norm_num), zpow_natCast]
    exact lt_of_le_of_lt (mul_le_mul_of_nonneg_right h1 hpe.le) hv
  have h4 := (zpow_lt_zpow_iff_right₀ (by norm_num : (1 : ℚ) < 2)).mp h3
  unfold quantum
  omega

theorem normal_of_le (m : Nat) (e : Int) (hv : (2 : ℚ) ^ (-1022 : ℤ) ≤ (m : ℚ) * 2 ^ e) :
    -1074 ≤ (bitLen m m : Int) - 1 + e - 52 := by
  have hhi := bitLen_lt_two_pow m m le_rfl
  have hpe : (0 : ℚ) < (2 : ℚ) ^ e := zpow_pos (by norm_num) e
  have h1 : (m : ℚ) < ((2 : ℚ) ^ (bitLen m m)) := by exact_mod_cast hhi
  have h3 : (2 : ℚ) ^ (-1022 : ℤ) < (2 : ℚ) ^ (((bitLen m m : ℕ) : ℤ) + e) := by
    rw [zpow_add₀ (by norm_num), zpow_natCast]
    exact lt_of_le_of_lt hv (mul_lt_mul_of_pos_right h1 hpe)
  have h4 := (zpow_lt_zpow_iff_right₀ (by norm_num : (1 : ℚ) < 2)).mp h3
  omega

/-- Addition of two finite numbers whose exact sum is zero or in the normal range errs
by at most `2^-53` of the exact sum. -/
theorem add_rel_error (s1 s2 : Bool) (m1 m2 : Nat) (q1 q2 : Int)
    (hlo : ((signed s1 m1 : ℤ) : ℚ) * 2 ^ q1 + ((signed s2 m2 : ℤ) : ℚ) * 2 ^ q2 ≠ 0 →
      (2 : ℚ) ^ (-1022 : ℤ)
        ≤ |((signed s1 m1 : ℤ) : ℚ) * 2 ^ q1 + ((signed s2 m2 : ℤ) : ℚ) * 2 ^ q2|)
    (hhi : |((signed s1 m1 : ℤ) : ℚ) * 2 ^ q1 + ((signed s2 m2 : ℤ) : ℚ) * 2 ^ q2|
      < 2 ^ (1023 : ℤ)) :
    ∃ r : ℚ, toRat (add (fin s1 m1 q1) (fin s2 m2 q2)) = some r ∧
      |r - (((signed s1 m1 : ℤ) : ℚ) * 2 ^ q1 + ((signed s2 m2 : ℤ) : ℚ) * 2 ^ q2)| * 2 ^ 53
        ≤ |((signed s1 m1 : ℤ) : ℚ) * 2 ^ q1 + ((signed s2 m2 : ℤ) : ℚ) * 2 ^ q2| := by
  have hsum := aligned_sum s1 s2 m1 m2 q1 q2
  have hpos : (0 : ℚ) < (2 : ℚ) ^ (min q1 q2) := zpow_pos (by norm_num) _
  simp only [add]
  generalize signed s1 (m1 * 2 ^ (q1 - min q1 q2).toNat)
    + signed s2 (m2 * 2 ^ (q2 - min q1 q2).toNat) = s at hsum ⊢
  generalize ((signed s1 m1 : ℤ) : ℚ) * 2 ^ q1 + ((signed s2 m2 : ℤ) : ℚ) * 2 ^ q2 = V
    at hsum hlo hhi ⊢
  by_cases h0 : s = 0
  · simp only [h0, if_true, toRat]
    refine ⟨_, rfl, ?_⟩
    rw [← hsum, h0]
    simp [signed]
  · simp only [h0, if_false]
    have hV : V ≠ 0 := by
      rw [← hsum]
      exact mul_ne_zero (by exact_mod_cast h0) hpos.ne'
    have habs : ((s.natAbs : Nat) : ℚ) * 2 ^ (min q1 q2) = |V| := by
      rw [← hsum, abs_mul, abs_of_pos hpos, Nat.cast_natAbs, Int.cast_abs]
    have hm : s.natAbs ≠ 0 := by omega
    obtain ⟨r, hr, herr⟩ := round_rel_error (decide (s < 0)) s.natAbs (min q1 q2) hm
      (normal_of_le _ _ (by rw [habs]; exact hlo hV))
      (quantum_le_of_lt _ _ 1023 hm le_rfl (by rw [habs]; exact hhi))
    rw [signed_natAbs, hsum] at herr
    exact ⟨r, hr, herr⟩

/-- Conversion of any integer below `2^64` in size errs by at most `2^-53` of it. -/
theorem ofInt_rel_error (n : Int) (h : n.natAbs < 2 ^ 64) :
    ∃ r : ℚ, toRat (ofInt n) = some r ∧ |r - (n : ℚ)| * 2 ^ 53 ≤ |(n : ℚ)| := by
  unfold ofInt
  by_cases h0 : n = 0
  · subst h0
    exact ⟨0, by simp [round, toRat, signed], by simp⟩
  · have hm : n.natAbs ≠ 0 := by omega
    have hL := one_le_bitLen n.natAbs hm
    have hlt : ((n.natAbs : Nat) : ℚ) * 2 ^ (0 : ℤ) < 2 ^ (64 : ℤ) := by
      rw [zpow_zero, mul_one, show (64 : ℤ) = ((64 : ℕ) : ℤ) from rfl, zpow_natCast]
      exact_mod_cast h
    obtain ⟨r, hr, herr⟩ := round_rel_error (decide (n < 0)) n.natAbs 0 hm (by omega)
      (quantum_le_of_lt _ _ 64 hm (by omega) hlt)
    rw [signed_natAbs] at herr
    simp only [zpow_zero, mul_one] at herr
    exact ⟨r, hr, herr⟩

/-- For every integer `n` of the int64 range, `float64(n)` is a number `r1` within
`2^-53` of `n`, relatively, and `float64(n) + 1` a number within `2^-53` of `r1 + 1`:
both the conversion and the addition are correct to half a unit of the last place. -/
theorem ofInt_add_one_rel_error (n : Int) (h1 : -(2 : Int) ^ 63 ≤ n)
    (h2 : n < (2 : Int) ^ 63) :
    ∃ r1 r2 : ℚ, toRat (ofInt n) = some r1 ∧ |r1 - (n : ℚ)| * 2 ^ 53 ≤ |(n : ℚ)| ∧
      toRat (add (ofInt n) one) = some r2 ∧ |r2 - (r1 + 1)| * 2 ^ 53 ≤ |r1 + 1| := by
  obtain ⟨r1, hr1, herr⟩ := ofInt_rel_error n (by omega)
  obtain ⟨s, m, q, hx, hval⟩ := toRat_eq_some _ _ hr1
  have hone : ((signed false (2 ^ 52) : ℤ) : ℚ) * 2 ^ (-52 : ℤ) = 1 := by
    simp only [signed]
    norm_num
  have hsmall : (2 : ℚ) ^ (-1022 : ℤ) ≤ 1 := by
    have := zpow_le_zpow_right₀ (by norm_num : (1 : ℚ) ≤ 2) (by norm_num : (-1022 : ℤ) ≤ 0)
    simpa using this
  have hbig : (2 : ℚ) ^ (65 : ℕ) ≤ (2 : ℚ) ^ (1023 : ℤ) := by
    have := zpow_le_zpow_right₀ (by norm_num : (1 : ℚ) ≤ 2)
      (by norm_num : ((65 : ℕ) : ℤ) ≤ 1023)
    rwa [zpow_natCast] at this
  have hn1 : (-(2 : ℚ) ^ 63) ≤ (n : ℚ) := by exact_mod_cast h1
  have hn2 : (n : ℚ) < (2 : ℚ) ^ 63 := by exact_mod_cast h2
  -- the exact sum is zero or at least one in size, and far below overflow
  have hV : (r1 + 1 = 0 ∨ 1 ≤ |r1 + 1|) ∧ |r1 + 1| < 2 ^ (65 : ℕ) := by
    by_cases hc : n.natAbs ≤ 2 ^ 53
    · have hex := ofInt_exact n hc
      rw [hr1] at hex
      have hrn : r1 = (n : ℚ) := Option.some.inj hex
      subst hrn
      have hint : ((n + 1 : Int) : ℚ) = (n : ℚ) + 1 := by push_cast; rfl
      rw [← hint, ← Int.cast_abs]
      constructor
      · by_cases hz : n + 1 = 0
        · left; exact_mod_cast hz
        · right
          have : (1 : Int) ≤ |n + 1| := Int.one_le_abs hz
          exact_mod_cast this
      · have : |n + 1| < (2 : Int) ^ 65 := by
          rw [abs_lt]
          constructor <;> omega
        exact_mod_cast this
    · have hbnd : |(n : ℚ)| ≤ 2 ^ 63 := by
        rw [abs_le]
        constructor <;> linarith
      have hd : |r1 - (n : ℚ)| ≤ 2 ^ 10 := by
        have : |r1 - (n : ℚ)| * 2 ^ 53 ≤ 2 ^ 10 * 2 ^ 53 := by
          calc |r1 - (n : ℚ)| * 2 ^ 53 ≤ |(n : ℚ)| := herr
            _ ≤ 2 ^ 63 := hbnd
            _ = 2 ^ 10 * 2 ^ 53 := by norm_num
        exact le_of_mul_le_mul_right this (by positivity)
      rw [abs_le] at hd
      have hcases : (2 : Int) ^ 53 < n ∨ n < -(2 : Int) ^ 53 := by omega
      rcases hcases with hp | hp
      · have hp' : (2 : ℚ) ^ 53 < (n : ℚ) := by exact_mod_cast hp
        have hpos : 0 < r1 + 1 := by
          have : (2 : ℚ) ^ 10 < 2 ^ 53 := by norm_num
          linarith [hd.1]
        rw [abs_of_pos hpos]
        refine ⟨Or.inr ?_, ?_⟩
        · have : (2 : ℚ) ^ 10 < 2 ^ 53 := by norm_num
          linarith [hd.1]
        · have : (2 : ℚ) ^ 63 + 2 ^ 10 + 1 < 2 ^ 65 := by norm_num
          linarith [hd.2]
      · have hp' : (n : ℚ) < -(2 : ℚ) ^ 53 := by exact_mod_cast hp
        have hneg : r1 + 1 < 0 := by
          have : (2 : ℚ) ^ 10 + 1 < 2 ^ 53 := by norm_num
          linarith [hd.2]
        rw [abs_of_neg hneg]
        refine ⟨Or.inr ?_, ?_⟩
        · have : (2 : ℚ) ^ 10 + 2 < 2 ^ 53 := by norm_num
          linarith [hd.2]
        · have : (2 : ℚ) ^ 63 + 2 ^ 10 < 2 ^ 65 := by norm_num
          linarith [hd.1]
  have hsumV : ((signed s m : ℤ) : ℚ) * 2 ^ q
      + ((signed false (2 ^ 52) : ℤ) : ℚ) * 2 ^ (-52 : ℤ) = r1 + 1 := by
    rw [hval, hone]
  obtain ⟨r2, hr2, herr2⟩ := add_rel_error s false m (2 ^ 52) q (-52)
    (by
      rw [hsumV]
      intro hne
      rcases hV.1 with h | h
      · exact absurd h hne
      · exact le_trans hsmall h)
    (by
      rw [hsumV]
      exact lt_of_lt_of_le hV.2 hbig)
  rw [hsumV] at herr2
  exact ⟨r1, r2, hr1, herr, by rw [hx, one]; exact hr2, herr2⟩

end F64

set_option maxRecDepth 8192 in
/-- C7, as stated, fails at the int `n = 2^53 + 1`: `plus_one(n)` is the float64
`2^53`, not the float `n + 1 = 2^53 + 2`, although `2^53 + 2` is a float64 (the
conversion of it is exact). The conversion of `n` already rounds to `2^53`, and adding
one rounds to `2^53` again. -/
theorem plus_one_rounds_large_integer :
    plus_one (.int (2 ^ 53 + 1)) = .ok (.float64 (.fin false (2 ^ 52) 1)) ∧
    F64.toRat (.fin false (2 ^ 52) 1) = some (2 ^ 53) ∧
    F64.ofInt (2 ^ 53 + 1 + 1) = .fin false (2 ^ 52 + 1) 1 ∧
    F64.toRat (.fin false (2 ^ 52 + 1) 1) = some (2 ^ 53 + 1 + 1) ∧
    F64.add (F64.ofInt (2 ^ 53 + 1)) F64.one ≠ F64.ofInt (2 ^ 53 + 1 + 1) := by
  refine ⟨rfl, ?_, rfl, ?_, by decide⟩
  · simp only [F64.toRat, F64.signed]; norm_num
  · simp only [F64.toRat, F64.signed]; norm_num

set_option maxRecDepth 8192 in
/-- C7, amended: `plus_one(x)` is `double(x) + 1` in float64 arithmetic whenever
`double` accepts `x`. For an `int` or `int64` input `n` it is `float64(n) + 1`. For
`-2^53 ≤ n < 2^53` that is the number `n + 1`, with no rounding. For every `n` of the
int64 range the conversion and the addition are each correct to half a unit of the last
place: `float64(n)` is a number `r1` with `|r1 - n| ≤ 2^-53 * |n|` and the result a
number `r2` with `|r2 - (r1 + 1)| ≤ 2^-53 * |r1 + 1|`; ties go to the even neighbour, as
in `plus_one(2^53 + 3) = 2^53 + 4`, `plus_one(-(2^53 + 3)) = -(2^53 + 4)`,
`plus_one(2^54 + 3) = 2^54 + 4` and `plus_one(2^63 - 1) = 2^63`. For a float64 input
the result is that float plus one. So `plus_one(1)` is the float64 `2` and
`plus_one(1.5)` is `2.5`, where `1.5 = 3 * 2^51 * 2^-52` and `2.5 = 5 * 2^50 * 2^-51`. -/
theorem plus_one_is_double_plus_one :
    (∀ x d, double x = .ok d → plus_one x = .ok (.float64 (F64.add d F64.one))) ∧
    (∀ n, plus_one (.int n) = .ok (.float64 (F64.add (F64.ofInt n) F64.one))) ∧
    (∀ n, plus_one (.int64 n) = .ok (.float64 (F64.add (F64.ofInt n) F64.one))) ∧
    (∀ v, plus_one (.float64 v) = .ok (.float64 (F64.add v F64.one))) ∧
    (∀ n : Int, -(2 : Int) ^ 53 ≤ n → n < (2 : Int) ^ 53 →
      F64.toRat (F64.add (F64.ofInt n) F64.one) = some ((n : ℚ) + 1)) ∧
    (∀ n : Int, -(2 : Int) ^ 63 ≤ n → n < (2 : Int) ^ 63 →
      ∃ r1 r2 : ℚ, F64.toRat (F64.ofInt n) = some r1 ∧
        |r1 - (n : ℚ)| * 2 ^ 53 ≤ |(n : ℚ)| ∧
        F64.toRat (F64.add (F64.ofInt n) F64.one) = some r2 ∧
        |r2 - (r1 + 1)| * 2 ^ 53 ≤ |r1 + 1|) ∧
    plus_one (.int (2 ^ 53 + 3)) = .ok (.float64 (.fin false (2 ^ 52 + 2) 1)) ∧
    plus_one (.int (-(2 ^ 53 + 3))) = .ok (.float64 (.fin true (2 ^ 52 + 2) 1)) ∧
    plus_one (.int64 (2 ^ 54 + 3)) = .ok (.float64 (.fin false (2 ^ 52 + 1) 2)) ∧
    plus_one (.int64 (2 ^ 63 - 1)) = .ok (.float64 (.fin false (2 ^ 52) 11)) ∧
    plus_one (.int 1) = .ok (.float64 (.fin false (2 ^ 52) (-51))) ∧
    F64.toRat (.fin false (2 ^ 52) (-51)) = some 2 ∧
    plus_one (.float64 (.fin false (3 * 2 ^ 51) (-52)))
      = .ok (.float64 (.fin false (5 * 2 ^ 50) (-51))) ∧
    F64.toRat (.fin false (3 * 2 ^ 51) (-52)) = some (3 / 2) ∧
    F64.toRat (.fin false (5 * 2 ^ 50) (-51)) = some (5 / 2) := by
  refine ⟨?_, fun _ => rfl, fun _ => rfl, fun _ => rfl, F64.ofInt_add_one_exact,
    F64.ofInt_add_one_rel_error, rfl, rfl, rfl, rfl, rfl, ?_, rfl, ?_, ?_⟩
  · intro x d h
    simp [plus_one, h]
  · simp only [F64.toRat, F64.signed]; norm_num
  · simp only [F64.toRat, F64.signed]; norm_num
  · simp only [F64.toRat, F64.signed]; norm_num

theorem plus_one_is_double_plus_one_witness :
    double (.int64 7) = .ok (F64.ofInt 7) ∧
    plus_one (.int64 7) = .ok (.float64 (F64.add (F64.ofInt 7) F64.one)) ∧
    (-(2 : Int) ^ 53 ≤ 7 ∧ (7 : Int) < (2 : Int) ^ 53) ∧
    F64.toRat (F64.add (F64.ofInt 7) F64.one) = some (((7 : Int) : ℚ) + 1) ∧
    (∃ r1 r2 : ℚ, F64.toRat (F64.ofInt 7) = some r1 ∧
        |r1 - ((7 : Int) : ℚ)| * 2 ^ 53 ≤ |((7 : Int) : ℚ)| ∧
        F64.toRat (F64.add (F64.ofInt 7) F64.one) = some r2 ∧
        |r2 - (r1 + 1)| * 2 ^ 53 ≤ |r1 + 1|) :=
  ⟨rfl, plus_one_is_double_plus_one.1 (.int64 7) (F64.ofInt 7) rfl,
    ⟨by decide, by decide⟩,
    plus_one_is_double_plus_one.2.2.2.2.1 7 (by decide) (by decide),
    plus_one_is_double_plus_one.2.2.2.2.2.1 7 (by decide) (by decide)⟩

/-- C8: `double` and `long` fail exactly on the values whose dynamic type is none of
`int`, `int64`, `float64`, and the failure is that of a type assertion (to `float64` in
`double`, to `int64` in `long`) on the value's dynamic type; on a value of one of the
three kinds both return. A string and the nil interface fail in both, and `plus_one`
fails with the panic of `double`. -/
theorem coercion_type_mismatch (x : Value) :
    ((∃ p, double x = .error p) ↔ x.isNumeric = false) ∧
    ((∃ p, long x = .error p) ↔ x.isNumeric = false) ∧
    (x.isNumeric = false →
      double x = .error (.typeAssertion x.dynType .float64) ∧
      long x = .error (.typeAssertion x.dynType .int64) ∧
      plus_one x = .error (.typeAssertion x.dynType .float64)) ∧
    (x.isNumeric = true → (∃ d, double x = .ok d) ∧ (∃ n, long x = .ok n)) ∧
    (∀ s, double (.str s) = .error (.typeAssertion (some .string) .float64) ∧
      long (.str s) = .error (.typeAssertion (some .string) .int64)) ∧
    double .nil = .error (.typeAssertion none .float64) ∧
    long .nil = .error (.typeAssertion none .int64) ∧
    (∀ p, double x = .error p → plus_one x = .error p) := by
  refine ⟨?_, ?_, ?_, ?_, fun s => ⟨rfl, rfl⟩, rfl, rfl, ?_⟩
  · cases x <;> simp [double, assertFloat64, Value.isNumeric, Value.dynType]
  · cases x <;> simp [long, assertInt64, Value.isNumeric, Value.dynType]
  · cases x <;>
      simp [double, long, plus_one, assertFloat64, assertInt64, Value.isNumeric,
        Value.dynType]
  · cases x <;>
      simp [double, long, assertFloat64, assertInt64, Value.isNumeric, Value.dynType]
  · intro p hp
    simp [plus_one, hp]

theorem coercion_type_mismatch_witness :
    (Value.str "x").isNumeric = false ∧
    double (.str "x") = .error (.typeAssertion (some .string) .float64) ∧
    long (.str "x") = .error (.typeAssertion (some .string) .int64) ∧
    plus_one (.str "x") = .error (.typeAssertion (some .string) .float64) :=
  ⟨by decide, (coercion_type_mismatch (.str "x")).2.2.1 (by decide)⟩

/-! ## One handler per dispatch -/

/-- A dispatch that returns a result has printed exactly one line. -/
theorem Bar_ok_one_line (f : Foo) (xs : List Value) (r : Value)
    (h : (f.Bar xs).res = .ok r) : (f.Bar xs).out.length = 1 := by
  match xs, h with
  | [], h => simp [Foo.Bar] at h
  | [x], _ => simp [Bar_one, Foo.Bar_1]
  | [x, y], _ => simp [Bar_two, Foo.Bar_2]
  | x :: y :: z :: rest, h =>
    by_cases hn : Value.nil ∈ x :: y :: z :: rest
    · rw [Bar_nil_arg f x y z rest hn] at h
      simp at h
    · have hall : ∀ v ∈ x :: y :: z :: rest, v ≠ .nil := fun v hv hv0 => hn (hv0 ▸ hv)
      simp [Bar_variadic f x y z rest hall, Foo.Bar_2_VA]

/-- A dispatch that panics has printed nothing. -/
theorem Bar_error_no_line (f : Foo) (xs : List Value) (p : Panic)
    (h : (f.Bar xs).res = .error p) : (f.Bar xs).out = [] := by
  match xs, h with
  | [], _ => rfl
  | [x], h => simp [Bar_one, Foo.Bar_1] at h
  | [x, y], h => simp [Bar_two, Foo.Bar_2] at h
  | x :: y :: z :: rest, h =>
    by_cases hn : Value.nil ∈ x :: y :: z :: rest
    · rw [Bar_nil_arg f x y z rest hn]
    · have hall : ∀ v ∈ x :: y :: z :: rest, v ≠ .nil := fun v hv hv0 => hn (hv0 ▸ hv)
      rw [Bar_variadic f x y z rest hall] at h
      simp [Foo.Bar_2_VA] at h

/-- A non-empty argument list without a nil element prints exactly one line. -/
theorem Bar_one_line_of_no_nil (f : Foo) (xs : List Value) (hne : xs ≠ [])
    (h : ∀ v ∈ xs, v ≠ .nil) : (f.Bar xs).out.length = 1 := by
  match xs, hne, h with
  | [], hne, _ => exact absurd rfl hne
  | [x], _, _ => simp [Bar_one, Foo.Bar_1]
  | [x, y], _, _ => simp [Bar_two, Foo.Bar_2]
  | x :: y :: z :: rest, _, h => simp [Bar_variadic f x y z rest h, Foo.Bar_2_VA]

/-- C11: the list `["a", nil, 3]` has length 3, and a call of `Bar` or of `Bar_ApplyTo`
on it adds no line to the log, where the claim expects the one line of `Bar_2_VA`: the
call panics inside reflect's `Call` before any handler runs. On the empty list no line
is added either. -/
theorem Bar_nil_argument_prints_nothing :
    ([.str "a", .nil, .int 3] : List Value).length = 3 ∧
    (Foo.Bar {} [.str "a", .nil, .int 3]).out.length = 0 ∧
    (Foo.Bar_ApplyTo {} [.str "a", .nil, .int 3]).out.length = 0 ∧
    (Foo.Bar {} [.str "a", .nil, .int 3]).res
      = .error (.msg "reflect: Call using zero Value argument") ∧
    (Foo.Bar {} []).out.length = 0 :=
  ⟨rfl, rfl, rfl, rfl, rfl⟩

/-- C12: for every `x`, `y` and every tail `xs`, the empty one included, `Bar_2_VA`
prints its one line and returns "Bar_2_VA"; it never panics. -/
theorem Bar_2_VA_any_tail (f : Foo) (x y : Value) (xs : List Value) :
    f.Bar_2_VA x y xs = ⟨[⟨"%d %d %d\n", [x, y, .slice xs]⟩], .ok (.str "Bar_2_VA")⟩ ∧
    (f.Bar_2_VA x y xs).res = .ok (.str "Bar_2_VA") ∧
    (f.Bar_2_VA x y []).res = .ok (.str "Bar_2_VA") :=
  ⟨rfl, rfl, rfl⟩

/-! ## long -/

theorem wrap64_of_range (n : Int) (h1 : -(2 : Int) ^ 63 ≤ n) (h2 : n < (2 : Int) ^ 63) :
    wrap64 n = n := by
  unfold wrap64
  omega

/-- C13: `long` keeps the value of an integer input. For an `int` `n` (an integer with
`-2^63 ≤ n < 2^63`), `long(n)` is the int64 `n`; for an int64 `n`, `long(n)` is `n`;
so `long` applied to a result of `long` returns that result. -/
theorem long_keeps_integer :
    (∀ n : Int, -(2 : Int) ^ 63 ≤ n → n < (2 : Int) ^ 63 → long (.int n) = .ok n) ∧
    (∀ n : Int, long (.int64 n) = .ok n) ∧
    (∀ (x : Value) (r : Int), long x = .ok r → long (.int64 r) = long x) := by
  refine ⟨fun n h1 h2 => ?_, fun _ => rfl, fun x r h => ?_⟩
  · simp only [long, wrap64_of_range n h1 h2]
  · rw [h]
    rfl

theorem long_keeps_integer_witness :
    (-(2 : Int) ^ 63 ≤ 4 ∧ (4 : Int) < (2 : Int) ^ 63) ∧
    long (.int 4) = .ok 4 ∧ long (.int64 4) = .ok 4 ∧
    long (.int64 4) = long (.int 4) :=
  ⟨⟨by decide, by decide⟩, long_keeps_integer.1 4 (by decide) (by decide),
    long_keeps_integer.2.1 4, long_keeps_integer.2.2 (.int 4) 4 rfl⟩

/-! ## Create -/

theorem sliceIndex_of_lt (xs : List Value) (i : Nat) (h : i < xs.length) :
    sliceIndex xs i = .ok (xs.get ⟨i, h⟩) := by
  simp [sliceIndex, List.getElem?_eq_getElem h]

theorem sliceIndex_of_le (xs : List Value) (i : Nat) (h : xs.length ≤ i) :
    sliceIndex xs i = .error (.indexOutOfRange i xs.length) := by
  simp [sliceIndex, List.getElem?_eq_none h]

/-- With enough fuel the indexed loop is the loop over the rest of the slice. -/
theorem Create_loop_eq_rest (keyvals : List Value) (fuel i : Nat)
    (obj : List (String × Value)) (h : keyvals.length ≤ i + 2 * fuel) :
    Create.loop keyvals fuel i obj
      = Create.rest keyvals.length i (keyvals.drop i) obj := by
  induction fuel generalizing i obj with
  | zero =>
    have hd : keyvals.drop i = [] := List.drop_eq_nil_of_le (by omega)
    simp [Create.loop, hd, Create.rest]
  | succ fuel ih =>
    by_cases hi : i < keyvals.length
    · have hd : keyvals.drop i = keyvals.get ⟨i, hi⟩ :: keyvals.drop (i + 1) := by
        simp
      simp only [Create.loop, hi, if_true, sliceIndex_of_lt keyvals i hi, hd]
      by_cases hi1 : i + 1 < keyvals.length
      · have hd1 : keyvals.drop (i + 1)
            = keyvals.get ⟨i + 1, hi1⟩ :: keyvals.drop (i + 1 + 1) := by
          simp
        simp only [sliceIndex_of_lt keyvals (i + 1) hi1, hd1, Create.rest]
        cases assertString (keyvals.get ⟨i, hi⟩) with
        | error p => rfl
        | ok s => exact ih (i + 1 + 1) _ (by omega)
      · have hd1 : keyvals.drop (i + 1) = [] := List.drop_eq_nil_of_le (by omega)
        simp only [sliceIndex_of_le keyvals (i + 1) (by omega), hd1, Create.rest]
    · have hd : keyvals.drop i = [] := List.drop_eq_nil_of_le (by omega)
      simp [Create.loop, hi, hd, Create.rest]

/-- `Create` returns or panics as the loop over the whole slice does: the fuel it is
given is enough. -/
theorem Create_eq_rest (keyvals : List Value) :
    Create keyvals = Create.rest keyvals.length 0 keyvals [] := by
  unfold Create
  rw [Create_loop_eq_rest keyvals keyvals.length 0 [] (by omega)]
  simp

theorem dynType_string_iff (x : Value) : x.dynType = some .string ↔ ∃ s, x = .str s := by
  cases x <;> simp [Value.dynType]

theorem assertString_of_not_string (x : Value) (h : x.dynType ≠ some .string) :
    assertString x = .error (.typeAssertion x.dynType .string) := by
  cases x <;> simp [Value.dynType] at h <;> rfl

/-- On `k0, v0, k1, v1, ...` the loop stores the pairs one after the other. -/
theorem Create_rest_keyvalsOf (len i : Nat) (pairs : List (String × Value))
    (obj : List (String × Value)) :
    Create.rest len i (keyvalsOf pairs) obj
      = .ok (pairs.foldl (fun m kv => mapSet m kv.1 kv.2) obj) := by
  induction pairs generalizing i obj with
  | nil => rfl
  | cons kv pairs ih =>
    obtain ⟨k, v⟩ := kv
    simp only [keyvalsOf, Create.rest, assertString, List.foldl_cons]
    exact ih _ _

theorem keyvalsOf_length (pairs : List (String × Value)) :
    (keyvalsOf pairs).length = 2 * pairs.length := by
  induction pairs with
  | nil => rfl
  | cons kv pairs ih =>
    obtain ⟨k, v⟩ := kv
    simp only [keyvalsOf, List.length_cons, ih]
    omega

theorem stringKeys_keyvalsOf (pairs : List (String × Value)) :
    stringKeys (keyvalsOf pairs) = true := by
  induction pairs with
  | nil => rfl
  | cons kv pairs ih =>
    obtain ⟨k, v⟩ := kv
    simp [keyvalsOf, stringKeys, Value.dynType, ih]

/-- An argument list of even length with strings at the even indices is a list of
key-value pairs. -/
theorem exists_pairs : ∀ (xs : List Value), xs.length % 2 = 0 → stringKeys xs = true →
    ∃ pairs, xs = keyvalsOf pairs
  | [], _, _ => ⟨[], rfl⟩
  | [k], h, _ => by simp at h
  | k :: v :: more, h, hk => by
    simp only [stringKeys, Bool.and_eq_true, decide_eq_true_eq] at hk
    obtain ⟨s, rfl⟩ := (dynType_string_iff k).mp hk.1
    have hlen : more.length % 2 = 0 := by
      simp only [List.length_cons] at h
      omega
    obtain ⟨pairs, rfl⟩ := exists_pairs more hlen hk.2
    exact ⟨(s, v) :: pairs, rfl⟩

/-- Odd length, strings at the even indices: the read of the value after the last key
is out of range. -/
theorem Create_rest_odd (len : Nat) : ∀ (i : Nat) (xs : List Value)
    (obj : List (String × Value)), xs.length % 2 = 1 → stringKeys xs = true →
    Create.rest len i xs obj = .error (.indexOutOfRange (i + xs.length) len)
  | _, [], _, h, _ => by simp at h
  | i, [k], obj, _, hk => by
    simp only [stringKeys, decide_eq_true_eq] at hk
    obtain ⟨s, rfl⟩ := (dynType_string_iff k).mp hk
    rfl
  | i, k :: v :: more, obj, h, hk => by
    simp only [stringKeys, Bool.and_eq_true, decide_eq_true_eq] at hk
    obtain ⟨s, rfl⟩ := (dynType_string_iff k).mp hk.1
    have hlen : more.length % 2 = 1 := by
      simp only [List.length_cons] at h
      omega
    simp only [Create.rest, assertString]
    rw [Create_rest_odd len (i + 1 + 1) more _ hlen hk.2]
    simp only [List.length_cons]
    congr 2
    omega

/-- A non-string at an even index: the type assertion on the first such element
panics, whatever the length. -/
theorem Create_rest_not_string (len : Nat) : ∀ (i : Nat) (xs : List Value)
    (obj : List (String × Value)), stringKeys xs = false →
    ∃ dyn, Create.rest len i xs obj = .error (.typeAssertion dyn .string)
  | _, [], _, hk => by simp [stringKeys] at hk
  | i, [k], obj, hk => by
    simp only [stringKeys, decide_eq_false_iff_not] at hk
    exact ⟨k.dynType, by simp only [Create.rest, assertString_of_not_string k hk]⟩
  | i, k :: v :: more, obj, hk => by
    by_cases hs : k.dynType = some .string
    · obtain ⟨s, rfl⟩ := (dynType_string_iff k).mp hs
      have hm : stringKeys more = false := by
        simpa [stringKeys, Value.dynType] using hk
      obtain ⟨dyn, hd⟩ := Create_rest_not_string len (i + 1 + 1) more (mapSet obj s v) hm
      exact ⟨dyn, by simp only [Create.rest, assertString, hd]⟩
    · exact ⟨k.dynType, by simp only [Create.rest, assertString_of_not_string k hs]⟩

/-- The recursive test `stringKeys` says that every element at an even index is a
string. -/
theorem stringKeys_iff : ∀ (xs : List Value), stringKeys xs = true ↔
    ∀ i, i < xs.length → i % 2 = 0 → ∃ s, xs[i]? = some (.str s)
  | [] => by simp [stringKeys]
  | [k] => by
    simp only [stringKeys, decide_eq_true_eq, dynType_string_iff]
    constructor
    · rintro ⟨s, rfl⟩ i hi _
      have : i = 0 := by simpa using hi
      subst this
      exact ⟨s, rfl⟩
    · intro h
      obtain ⟨s, hs⟩ := h 0 (by simp) rfl
      exact ⟨s, by simpa using hs⟩
  | k :: v :: more => by
    simp only [stringKeys, Bool.and_eq_true, decide_eq_true_eq, dynType_string_iff,
      stringKeys_iff more]
    constructor
    · rintro ⟨⟨s, rfl⟩, hm⟩ i hi heven
      match i, hi, heven with
      | 0, _, _ => exact ⟨s, rfl⟩
      | 1, _, h1 => simp at h1
      | j + 2, hj, hj2 =>
        have := hm j (by simpa using hj) (by omega)
        simpa using this
    · intro h
      refine ⟨?_, fun j hj hj2 => ?_⟩
      · obtain ⟨s, hs⟩ := h 0 (by simp) rfl
        exact ⟨s, by simpa using hs⟩
      · have := h (j + 2) (by simpa using hj) (by omega)
        simpa using this

/-! ### The map that `Create` builds -/

theorem mapGet_mapSet_self (obj : List (String × Value)) (k : String) (v : Value) :
    mapGet (mapSet obj k v) k = some v := by
  induction obj with
  | nil => simp [mapSet, mapGet]
  | cons e rest ih =>
    obtain ⟨k1, v1⟩ := e
    by_cases h : k1 = k
    · simp [mapSet, mapGet, h]
    · simp [mapSet, mapGet, h, ih]

theorem mapGet_mapSet_ne (obj : List (String × Value)) (k k2 : String) (v : Value)
    (hne : k ≠ k2) : mapGet (mapSet obj k v) k2 = mapGet obj k2 := by
  induction obj with
  | nil => simp [mapSet, mapGet, hne]
  | cons e rest ih =>
    obtain ⟨k1, v1⟩ := e
    by_cases h : k1 = k
    · subst h
      simp [mapSet, mapGet, hne]
    · by_cases h2 : k1 = k2
      · subst h2
        simp [mapSet, mapGet, h]
      · simp [mapSet, mapGet, h, h2, ih]

theorem mem_keys_mapSet (obj : List (String × Value)) (k k2 : String) (v : Value) :
    k2 ∈ (mapSet obj k v).map Prod.fst ↔ k2 = k ∨ k2 ∈ obj.map Prod.fst := by
  induction obj with
  | nil => simp [mapSet]
  | cons e rest ih =>
    obtain ⟨k1, v1⟩ := e
    by_cases h : k1 = k
    · subst h
      simp [mapSet]
    · simp only [mapSet, h, if_false, List.map_cons, List.mem_cons, ih]
      tauto

theorem nodup_keys_mapSet (obj : List (String × Value)) (k : String) (v : Value)
    (hnd : (obj.map Prod.fst).Nodup) : ((mapSet obj k v).map Prod.fst).Nodup := by
  induction obj with
  | nil => simp [mapSet]
  | cons e rest ih =>
    obtain ⟨k1, v1⟩ := e
    simp only [List.map_cons, List.nodup_cons] at hnd
    by_cases h : k1 = k
    · subst h
      simp only [mapSet, if_true, List.map_cons, List.nodup_cons]
      exact hnd
    · simp only [mapSet, h, if_false, List.map_cons, List.nodup_cons]
      refine ⟨?_, ih hnd.2⟩
      rw [mem_keys_mapSet]
      rintro (h1 | h1)
      · exact h h1
      · exact hnd.1 h1

theorem mapGet_eq_none (obj : List (String × Value)) (k : String)
    (h : k ∉ obj.map Prod.fst) : mapGet obj k = none := by
  induction obj with
  | nil => rfl
  | cons e rest ih =>
    obtain ⟨k1, v1⟩ := e
    simp only [List.map_cons, List.mem_cons, not_or] at h
    have h1 : ¬ k1 = k := fun hk => h.1 hk.symm
    simp [mapGet, h1, ih h.2]

theorem mapGet_foldl_of_not_mem (pairs obj : List (String × Value)) (k : String)
    (h : k ∉ pairs.map Prod.fst) :
    mapGet (pairs.foldl (fun m kv => mapSet m kv.1 kv.2) obj) k = mapGet obj k := by
  induction pairs generalizing obj with
  | nil => rfl
  | cons e rest ih =>
    simp only [List.map_cons, List.mem_cons, not_or] at h
    simp only [List.foldl_cons]
    rw [ih _ h.2, mapGet_mapSet_ne _ _ _ _ (fun hk => h.1 hk.symm)]

theorem mem_keys_foldl (pairs obj : List (String × Value)) (k : String) :
    k ∈ (pairs.foldl (fun m kv => mapSet m kv.1 kv.2) obj).map Prod.fst
      ↔ k ∈ obj.map Prod.fst ∨ k ∈ pairs.map Prod.fst := by
  induction pairs generalizing obj with
  | nil => simp
  | cons e rest ih =>
    simp only [List.foldl_cons, ih, mem_keys_mapSet, List.map_cons, List.mem_cons]
    tauto

theorem nodup_keys_foldl (pairs obj : List (String × Value))
    (hnd : (obj.map Prod.fst).Nodup) :
    ((pairs.foldl (fun m kv => mapSet m kv.1 kv.2) obj).map Prod.fst).Nodup := by
  induction pairs generalizing obj with
  | nil => exact hnd
  | cons e rest ih =>
    simp only [List.foldl_cons]
    exact ih _ (nodup_keys_mapSet obj e.1 e.2 hnd)

/-- After the pairs are stored one after the other, a key holds the value of its last
pair. -/
theorem mapGet_foldl_last (pre post obj : List (String × Value)) (k : String) (v : Value)
    (h : k ∉ post.map Prod.fst) :
    mapGet ((pre ++ (k, v) :: post).foldl (fun m kv => mapSet m kv.1 kv.2) obj) k
      = some v := by
  rw [List.foldl_append, List.foldl_cons, mapGet_foldl_of_not_mem post _ k h,
    mapGet_mapSet_self]

/-- C14, as stated, fails on `Create(1, 2, "a")`: the number of arguments is odd, and
the call panics on the type assertion of the key `1`, not on an index out of range. -/
theorem Create_odd_length_type_assertion :
    ([.int 1, .int 2, .str "a"] : List Value).length % 2 = 1 ∧
    Create [.int 1, .int 2, .str "a"] = .error (.typeAssertion (some .int) .string) :=
  ⟨rfl, rfl⟩

/-- C14, amended: `Create` returns if and only if the number of arguments is even and
every argument at an even index is a string. With an odd number of arguments whose
even-index elements are all strings it panics with index out of range, reading the
value at index `len(keyvals)` that is missing. With a non-string at an even index it
panics on a type assertion to `string`, whatever the number of arguments. Without
arguments it returns the empty map. -/
theorem Create_succeeds_iff (keyvals : List Value) :
    ((∃ obj, Create keyvals = .ok obj) ↔
      (keyvals.length % 2 = 0 ∧
        ∀ i, i < keyvals.length → i % 2 = 0 → ∃ s, keyvals[i]? = some (.str s))) ∧
    (keyvals.length % 2 = 1 →
      (∀ i, i < keyvals.length → i % 2 = 0 → ∃ s, keyvals[i]? = some (.str s)) →
      Create keyvals = .error (.indexOutOfRange keyvals.length keyvals.length)) ∧
    (¬ (∀ i, i < keyvals.length → i % 2 = 0 → ∃ s, keyvals[i]? = some (.str s)) →
      ∃ dyn, Create keyvals = .error (.typeAssertion dyn .string)) ∧
    Create [] = .ok [] := by
  have hodd : keyvals.length % 2 = 1 → stringKeys keyvals = true →
      Create keyvals = .error (.indexOutOfRange keyvals.length keyvals.length) := by
    intro h1 h2
    rw [Create_eq_rest, Create_rest_odd keyvals.length 0 keyvals [] h1 h2]
    simp
  have hnot : stringKeys keyvals = false →
      ∃ dyn, Create keyvals = .error (.typeAssertion dyn .string) := by
    intro h
    rw [Create_eq_rest]
    exact Create_rest_not_string keyvals.length 0 keyvals [] h
  refine ⟨⟨?_, ?_⟩, ?_, ?_, rfl⟩
  · rintro ⟨obj, hobj⟩
    cases hk : stringKeys keyvals with
    | false =>
      obtain ⟨dyn, hd⟩ := hnot hk
      rw [hd] at hobj
      simp at hobj
    | true =>
      refine ⟨?_, (stringKeys_iff keyvals).mp hk⟩
      by_contra hne
      rw [hodd (by omega) hk] at hobj
      simp at hobj
  · rintro ⟨heven, hkeys⟩
    obtain ⟨pairs, rfl⟩ := exists_pairs keyvals heven ((stringKeys_iff keyvals).mpr hkeys)
    exact ⟨_, by rw [Create_eq_rest, Create_rest_keyvalsOf]⟩
  · intro h1 hkeys
    exact hodd h1 ((stringKeys_iff keyvals).mpr hkeys)
  · intro hkeys
    apply hnot
    cases hk : stringKeys keyvals with
    | false => rfl
    | true => exact absurd ((stringKeys_iff keyvals).mp hk) hkeys

theorem Create_succeeds_iff_witness :
    ([.str "a", .int 1, .str "b"] : List Value).length % 2 = 1 ∧
    Create [.str "a", .int 1, .str "b"] = .error (.indexOutOfRange 3 3) :=
  ⟨rfl, (Create_succeeds_iff [.str "a", .int 1, .str "b"]).2.1 rfl (by
    intro i hi h2
    have hi3 : i < 3 := hi
    interval_cases i
    · exact ⟨"a", rfl⟩
    · simp at h2
    · exact ⟨"b", rfl⟩)⟩

/-- C15: for an argument list of even length whose even-index elements are all strings,
that is a list `k0, v0, k1, v1, ...` of pairs, `Create` returns a map with one entry per
key, whose keys are exactly `k0, k1, ...`, and in which each key holds the value of its
last pair in the list. -/
theorem Create_last_value_wins (keyvals : List Value) (heven : keyvals.length % 2 = 0)
    (hkeys : ∀ i, i < keyvals.length → i % 2 = 0 → ∃ s, keyvals[i]? = some (.str s)) :
    ∃ pairs obj, keyvals = keyvalsOf pairs ∧ Create keyvals = .ok obj ∧
      (obj.map Prod.fst).Nodup ∧
      (∀ k, k ∈ obj.map Prod.fst ↔ k ∈ pairs.map Prod.fst) ∧
      (∀ pre k v post, pairs = pre ++ (k, v) :: post → k ∉ post.map Prod.fst →
        mapGet obj k = some v) ∧
      (∀ k, k ∉ pairs.map Prod.fst → mapGet obj k = none) := by
  obtain ⟨pairs, rfl⟩ := exists_pairs keyvals heven ((stringKeys_iff keyvals).mpr hkeys)
  refine ⟨pairs, pairs.foldl (fun m kv => mapSet m kv.1 kv.2) [], rfl,
    by rw [Create_eq_rest, Create_rest_keyvalsOf], ?_, ?_, ?_, ?_⟩
  · exact nodup_keys_foldl pairs [] (by simp)
  · intro k
    rw [mem_keys_foldl]
    simp
  · rintro pre k v post rfl hk
    exact mapGet_foldl_last pre post [] k v hk
  · intro k hk
    apply mapGet_eq_none
    rw [mem_keys_foldl]
    rintro (h | h)
    · simp at h
    · exact hk h

theorem Create_last_value_wins_witness :
    ([.str "a", .int 1, .str "a", .int 2] : List Value).length % 2 = 0 ∧
    ∃ pairs obj, [.str "a", .int 1, .str "a", .int 2] = keyvalsOf pairs ∧
      Create [.str "a", .int 1, .str "a", .int 2] = .ok obj ∧
      (obj.map Prod.fst).Nodup ∧
      (∀ k, k ∈ obj.map Prod.fst ↔ k ∈ pairs.map Prod.fst) ∧
      (∀ pre k v post, pairs = pre ++ (k, v) :: post → k ∉ post.map Prod.fst →
        mapGet obj k = some v) ∧
      (∀ k, k ∉ pairs.map Prod.fst → mapGet obj k = none) :=
  ⟨rfl, Create_last_value_wins [.str "a", .int 1, .str "a", .int 2] rfl (by
    intro i hi h2
    have hi4 : i < 4 := hi
    interval_cases i
    · exact ⟨"a", rfl⟩
    · simp at h2
    · exact ⟨"a", rfl⟩
    · simp at h2)⟩

/-! ## ForEach -/

end Cljs2go
